import Mathlib

/-!
Verification of the Wave Function Collapse solver of the `mapgen_2d` repository
(`src/wave_function_collapse.rs`, `src/region.rs`, `src/neighborhood.rs`).

The Rust code is shallowly embedded:
* `u32` coordinates become `ℕ` (`u32::saturating_add` / the `as u32` truncation
  are modelled explicitly where the source uses them);
* `f32` probability weights become `ℚ` (comparisons with the `NO_PROBABILITY`
  sentinel `-1.0` and with `0.0` are exact in the source, so exact rational
  arithmetic models them);
* the `StdRng`-generated uniform rolls of `regenerate` become an abstract
  stream `ℕ → ℚ` (one roll per loop iteration, a deterministic function of the
  configured seed in the source);
* the `f32` Shannon-entropy computation (`-Σ p·log2 p`) becomes an abstract
  parameter `ent : (ℕ → ℚ) → ℚ`, since none of the verified claims depends on
  the numeric value of an entropy, only on the ordering maintained by the
  priority structure;
* `panic!` / failed `assert!` sites become an error value of the `Panic` type,
  one constructor per panic site of the source file.
-/

/-- A 2d grid coordinate, the embedding of `glam::UVec2` (`u32` components). -/
abbrev Coord : Type := ℕ × ℕ

/-- One past the largest `u32` value. -/
def u32Mod : ℕ := 2 ^ 32

/-- `u32::saturating_add` on `ℕ` representatives of `u32` values. -/
def satAddU32 (a b : ℕ) : ℕ := min (a + b) (u32Mod - 1)

/-- Update a total map at a single coordinate. -/
def upd2 {α : Type} (f : Coord → α) (p : Coord) (v : α) : Coord → α :=
  fun q => if q = p then v else f q

theorem upd2_same {α : Type} (f : Coord → α) (p : Coord) (v : α) : upd2 f p v p = v := by
  simp [upd2]

theorem upd2_other {α : Type} (f : Coord → α) (p q : Coord) (v : α) (h : q ≠ p) :
    upd2 f p v q = f q := by
  simp [upd2, h]

/-- Membership of a coordinate in a `size.1 × size.2` grid. -/
def inGrid (size : Coord) (p : Coord) : Prop := p.1 < size.1 ∧ p.2 < size.2

instance (size p : Coord) : Decidable (inGrid size p) := by
  unfold inGrid; infer_instance

/-- Embedding of `Rect` from `region.rs`: an axis-aligned rectangle given by its
top-left and (inclusive) bottom-right corner. -/
structure Rect where
  topLeft : Coord
  bottomRight : Coord
deriving DecidableEq

/-- `Rect::from_corners` (bottom-right inclusive). -/
def Rect.fromCorners (tl br : Coord) : Rect := ⟨tl, br⟩

/-- `Rect::from_size`. The source asserts `size.x != 0 && size.y != 0`; theorems
about callers carry that hypothesis. -/
def Rect.fromSize (size : Coord) : Rect := ⟨(0, 0), (size.1 - 1, size.2 - 1)⟩

/-- `Rect::around`: the square of the given radius around `center`
(`u32::saturating_sub` is `ℕ` subtraction, `u32::saturating_add` is modelled). -/
def Rect.around (center : Coord) (radius : ℕ) : Rect :=
  ⟨(center.1 - radius, center.2 - radius),
   (satAddU32 center.1 radius, satAddU32 center.2 radius)⟩

/-- `Rect::intersect`: the corners are the element-wise min of the top-lefts and
the element-wise min of the bottom-rights, exactly as in the source. -/
def Rect.intersect (self other : Rect) : Rect :=
  Rect.fromCorners
    (min self.topLeft.1 other.topLeft.1, min self.topLeft.2 other.topLeft.2)
    (min self.bottomRight.1 other.bottomRight.1, min self.bottomRight.2 other.bottomRight.2)

/-- `Rect::iter_indices` / `RectIterator`: all contained positions in row-major
order, `x` fastest. When `top_left.x > bottom_right.x` the source iterator still
yields one position (`top_left.x`) per row, hence the `max 1`. -/
def Rect.iterIndices (r : Rect) : List Coord :=
  (List.range' r.topLeft.2 (r.bottomRight.2 + 1 - r.topLeft.2)).flatMap
    (fun y => (List.range' r.topLeft.1 (max 1 (r.bottomRight.1 + 1 - r.topLeft.1))).map
      (fun x => (x, y)))

theorem Rect.mem_iterIndices (r : Rect) (h1 : r.topLeft.1 ≤ r.bottomRight.1) (p : Coord) :
    p ∈ r.iterIndices ↔
      (r.topLeft.1 ≤ p.1 ∧ p.1 ≤ r.bottomRight.1 ∧
       r.topLeft.2 ≤ p.2 ∧ p.2 ≤ r.bottomRight.2) := by
  unfold Rect.iterIndices
  simp only [List.mem_flatMap, List.mem_map, List.mem_range']
  constructor
  · rintro ⟨y, ⟨i, hi, rfl⟩, x, ⟨j, hj, rfl⟩, rfl⟩
    omega
  · rintro ⟨ha, hb, hc, hd⟩
    exact ⟨p.2, ⟨p.2 - r.topLeft.2, by omega, by omega⟩,
           p.1, ⟨p.1 - r.topLeft.1, by omega, by omega⟩, by simp⟩

/-! ### The entropy priority structure

Embedding of the `priority_queue::PriorityQueue<UVec2, FloatOrd<f32>>` used by
the solver, as an association list of (coordinate, priority) entries.
`push` updates the priority when the key is present (as the crate does),
`change_priority` updates the priority only when the key is present, and
`popMax` removes and returns an entry of maximal priority (the crate is a
max-queue; ties are broken deterministically here, taking the leftmost). -/

/-- An entry of the priority structure. -/
abbrev QEntry : Type := Coord × ℚ

/-- `PriorityQueue::push`. -/
def qpush (q : List QEntry) (p : Coord) (e : ℚ) : List QEntry :=
  if q.any (fun x => decide (x.1 = p)) then
    q.map (fun x => if x.1 = p then (p, e) else x)
  else q ++ [(p, e)]

/-- `PriorityQueue::change_priority`: no-op when the key is absent. -/
def qchange (q : List QEntry) (p : Coord) (e : ℚ) : List QEntry :=
  q.map (fun x => if x.1 = p then (p, e) else x)

/-- `PriorityQueue::pop`: remove and return an entry of maximal priority. -/
def popMax : List QEntry → Option (QEntry × List QEntry)
  | [] => none
  | x :: xs =>
    match popMax xs with
    | none => some (x, [])
    | some (m, rest) => if x.2 < m.2 then some (m, x :: rest) else some (x, xs)

/-- The priority structure tracks a key. -/
def hasKey (q : List QEntry) (p : Coord) : Prop := ∃ e, (p, e) ∈ q

theorem qchange_length (q : List QEntry) (p : Coord) (e : ℚ) :
    (qchange q p e).length = q.length := by
  simp [qchange]

theorem qchange_keys (q : List QEntry) (p : Coord) (e : ℚ) :
    ∀ x ∈ qchange q p e, ∃ y ∈ q, y.1 = x.1 := by
  intro x hx
  simp only [qchange, List.mem_map] at hx
  obtain ⟨y, hy, hxy⟩ := hx
  refine ⟨y, hy, ?_⟩
  by_cases h : y.1 = p <;> simp [h] at hxy <;> simp [← hxy, h]

theorem qchange_hasKey (q : List QEntry) (p : Coord) (e : ℚ) (p' : Coord) :
    hasKey (qchange q p e) p' ↔ hasKey q p' := by
  constructor
  · rintro ⟨e', he'⟩
    obtain ⟨y, hy, hk⟩ := qchange_keys q p e (p', e') he'
    refine ⟨y.2, ?_⟩
    have hk' : y.1 = p' := hk
    rw [← hk']
    exact hy
  · rintro ⟨e', he'⟩
    by_cases h : p' = p
    · subst h
      refine ⟨e, ?_⟩
      simp only [qchange, List.mem_map]
      exact ⟨(p', e'), he', by simp⟩
    · refine ⟨e', ?_⟩
      simp only [qchange, List.mem_map]
      exact ⟨(p', e'), he', by simp [h]⟩

theorem qpush_keys (q : List QEntry) (p : Coord) (e : ℚ) :
    ∀ x ∈ qpush q p e, (∃ y ∈ q, y.1 = x.1) ∨ x.1 = p := by
  intro x hx
  unfold qpush at hx
  by_cases h : q.any (fun x => decide (x.1 = p))
  · rw [if_pos h] at hx
    exact Or.inl (qchange_keys q p e x hx)
  · rw [if_neg h] at hx
    rcases List.mem_append.mp hx with h1 | h2
    · exact Or.inl ⟨x, h1, rfl⟩
    · simp at h2; simp [h2]

theorem qpush_hasKey_self (q : List QEntry) (p : Coord) (e : ℚ) :
    hasKey (qpush q p e) p := by
  unfold qpush
  by_cases h : q.any (fun x => decide (x.1 = p))
  · rw [if_pos h]
    simp only [List.any_eq_true, decide_eq_true_eq] at h
    obtain ⟨y, hy, hk⟩ := h
    exact ⟨e, by simp only [List.mem_map]; exact ⟨y, hy, by simp [hk]⟩⟩
  · rw [if_neg h]
    exact ⟨e, by simp⟩

theorem qpush_hasKey_mono (q : List QEntry) (p : Coord) (e : ℚ) (p' : Coord) :
    hasKey q p' → hasKey (qpush q p e) p' := by
  rintro ⟨e', he'⟩
  unfold qpush
  by_cases h : q.any (fun x => decide (x.1 = p))
  · rw [if_pos h]
    exact (qchange_hasKey q p e p').mpr ⟨e', he'⟩
  · rw [if_neg h]
    exact ⟨e', List.mem_append.mpr (Or.inl he')⟩

theorem popMax_none (l : List QEntry) : popMax l = none ↔ l = [] := by
  cases l with
  | nil => simp [popMax]
  | cons x xs =>
    simp only [popMax]
    cases popMax xs with
    | none => simp
    | some m => cases m with | mk a b => by_cases h : x.2 < a.2 <;> simp [h]

theorem popMax_mem (l : List QEntry) (m : QEntry) (rest : List QEntry)
    (h : popMax l = some (m, rest)) : m ∈ l := by
  induction l generalizing m rest with
  | nil => simp [popMax] at h
  | cons x xs ih =>
    cases hp : popMax xs with
    | none => simp only [popMax, hp] at h; simp at h; simp [h.1]
    | some mr =>
      obtain ⟨m', rest'⟩ := mr
      simp only [popMax, hp] at h
      by_cases hlt : x.2 < m'.2
      · rw [if_pos hlt] at h
        simp at h
        exact List.mem_cons_of_mem x (h.1 ▸ ih m' rest' hp)
      · rw [if_neg hlt] at h
        simp at h
        simp [h.1]

theorem popMax_max (l : List QEntry) (m : QEntry) (rest : List QEntry)
    (h : popMax l = some (m, rest)) : ∀ x ∈ l, x.2 ≤ m.2 := by
  induction l generalizing m rest with
  | nil => simp [popMax] at h
  | cons x xs ih =>
    cases hp : popMax xs with
    | none =>
      simp only [popMax, hp] at h
      have : xs = [] := (popMax_none xs).mp hp
      subst this
      simp at h
      simp [h.1]
    | some mr =>
      obtain ⟨m', rest'⟩ := mr
      simp only [popMax, hp] at h
      by_cases hlt : x.2 < m'.2
      · rw [if_pos hlt] at h
        simp at h
        intro y hy
        rcases List.mem_cons.mp hy with rfl | hy'
        · exact le_of_lt (h.1 ▸ hlt)
        · exact h.1 ▸ ih m' rest' hp y hy'
      · rw [if_neg hlt] at h
        simp at h
        intro y hy
        rcases List.mem_cons.mp hy with rfl | hy'
        · exact h.1 ▸ le_refl _
        · exact h.1 ▸ le_trans (ih m' rest' hp y hy') (not_lt.mp hlt)

theorem popMax_length (l : List QEntry) (m : QEntry) (rest : List QEntry)
    (h : popMax l = some (m, rest)) : rest.length + 1 = l.length := by
  induction l generalizing m rest with
  | nil => simp [popMax] at h
  | cons x xs ih =>
    cases hp : popMax xs with
    | none =>
      simp only [popMax, hp] at h
      have : xs = [] := (popMax_none xs).mp hp
      subst this
      simp at h
      simp [h.2]
    | some mr =>
      obtain ⟨m', rest'⟩ := mr
      simp only [popMax, hp] at h
      by_cases hlt : x.2 < m'.2
      · rw [if_pos hlt] at h
        simp at h
        have := ih m' rest' hp
        rw [← h.2]
        simp
        omega
      · rw [if_neg hlt] at h
        simp at h
        rw [← h.2]
        simp

theorem popMax_cases (l : List QEntry) (m : QEntry) (rest : List QEntry)
    (h : popMax l = some (m, rest)) : ∀ x ∈ l, x = m ∨ x ∈ rest := by
  induction l generalizing m rest with
  | nil => simp [popMax] at h
  | cons x xs ih =>
    cases hp : popMax xs with
    | none =>
      simp only [popMax, hp] at h
      have : xs = [] := (popMax_none xs).mp hp
      subst this
      simp at h
      simp [h.1]
    | some mr =>
      obtain ⟨m', rest'⟩ := mr
      simp only [popMax, hp] at h
      by_cases hlt : x.2 < m'.2
      · rw [if_pos hlt] at h
        simp at h
        obtain ⟨hm, hr⟩ := h
        intro y hy
        rcases List.mem_cons.mp hy with rfl | hy'
        · right; rw [← hr]; simp
        · rcases ih m' rest' hp y hy' with h1 | h2
          · left; rw [← hm, h1]
          · right; rw [← hr]; simp [h2]
      · rw [if_neg hlt] at h
        simp at h
        obtain ⟨hm, hr⟩ := h
        intro y hy
        rcases List.mem_cons.mp hy with rfl | hy'
        · left; exact hm
        · right; rw [← hr]; exact hy'

theorem popMax_rest_mem (l : List QEntry) (m : QEntry) (rest : List QEntry)
    (h : popMax l = some (m, rest)) : ∀ x ∈ rest, x ∈ l := by
  induction l generalizing m rest with
  | nil => simp [popMax] at h
  | cons x xs ih =>
    cases hp : popMax xs with
    | none =>
      simp only [popMax, hp] at h
      simp at h
      rw [h.2]
      simp
    | some mr =>
      obtain ⟨m', rest'⟩ := mr
      simp only [popMax, hp] at h
      by_cases hlt : x.2 < m'.2
      · rw [if_pos hlt] at h
        simp at h
        intro y hy
        rw [← h.2] at hy
        rcases List.mem_cons.mp hy with rfl | hy'
        · simp
        · exact List.mem_cons_of_mem x (ih m' rest' hp y hy')
      · rw [if_neg hlt] at h
        simp at h
        intro y hy
        rw [← h.2] at hy
        exact List.mem_cons_of_mem x hy

/-! ### Neighborhood iteration (`neighborhood.rs`)

Two iterators are present in the source file: `NeighborPositions::iter`
(Manhattan-ball positions inside a clamped bounding box) and
`Neighborhood::iter_positions` (the four cardinal neighbors, via the offset
rotation of `NeighborhoodIterator`). `u32 as i32` casts are modelled by
`toI32`; `glam`'s release-mode `clamp` is `max` then `min`. -/

/-- The value of a `u32` (represented as `ℕ`) after an `as i32` cast. -/
def toI32 (n : ℕ) : ℤ := ((n : ℤ) + 2 ^ 31) % 2 ^ 32 - 2 ^ 31

/-- `glam` componentwise clamp (release mode): `v.max(lo).min(hi)`. -/
def clampI (v lo hi : ℤ) : ℤ := min (max v lo) hi

/-- The `manhattan` helper of `neighborhood.rs`:
`(a.x as i32 - b.x as i32).abs() as u32 + (a.y as i32 - b.y as i32).abs() as u32`. -/
def manhattan (a b : Coord) : ℕ :=
  (toI32 a.1 - toI32 b.1).natAbs + (toI32 a.2 - toI32 b.2).natAbs

/-- `NeighborPositions::iter`: the positions of the clamped bounding box of
radius `radius` around `position`, filtered to Manhattan distance at most
`radius` and distinct from `position`. -/
def NeighborPositions.iterList (size position : Coord) (radius : ℕ) : List Coord :=
  let r : ℤ := toI32 radius
  let hiX : ℤ := toI32 size.1 - 1
  let hiY : ℤ := toI32 size.2 - 1
  let tlX : ℤ := clampI (toI32 position.1 - r) 0 hiX
  let tlY : ℤ := clampI (toI32 position.2 - r) 0 hiY
  let brX : ℤ := clampI (toI32 position.1 + r) 0 hiX
  let brY : ℤ := clampI (toI32 position.2 + r) 0 hiY
  ((Rect.fromCorners (tlX.toNat, tlY.toNat) (brX.toNat, brY.toNat)).iterIndices).filter
    (fun x => decide (x ≠ position ∧ manhattan x position ≤ radius))

/-- The offset sequence of `NeighborhoodIterator`: starting from `(0, 1)` and
rotating `(oy, -ox)` until `(-1, 0)`. -/
def neighborhoodOffsets : List (ℤ × ℤ) := [(0, 1), (1, 0), (0, -1), (-1, 0)]

/-- `Neighborhood::iter_positions` (the version present in `neighborhood.rs`,
without a validity mask, as constructed by `Neighborhood::new`): the four
cardinal neighbors that lie inside the map. -/
def Neighborhood.iterPositionsList (size : Coord) (position : ℤ × ℤ) : List Coord :=
  neighborhoodOffsets.filterMap (fun o =>
    let p : ℤ × ℤ := (position.1 + o.1, position.2 + o.2)
    if 0 ≤ p.1 ∧ 0 ≤ p.2 ∧ p.1 < toI32 size.1 ∧ p.2 < toI32 size.2 then
      some (p.1.toNat, p.2.toNat)
    else none)

/-- The Chebyshev metric `max(|dx|, |dy|)` (`chebyshev` in the source, applied
by the solver to relative offsets). -/
def chebyshev (d : ℤ × ℤ) : ℕ := max d.1.natAbs d.2.natAbs

/-- Modelled from the spec: the metric-parameterized `Neighborhood` that
`wave_function_collapse.rs` constructs (`Neighborhood::new(tiles, pos, chebyshev,
neighborhood_size)`, then `iter_positions`) is not present under `src/`
(`neighborhood.rs` holds an older, metric-free version). Per spec §4.2 the
iterator computes the bounding square of the given radius around the center,
clamps it to `[0, size-1]` on both axes, and yields every position of that box
with `metric(position - center) ≤ radius` and `position ≠ center`, in row-major
order. The solver always passes the `chebyshev` metric. -/
def neighborPositions (size center : Coord) (radius : ℕ) : List Coord :=
  let tl : Coord := (min (center.1 - radius) (size.1 - 1), min (center.2 - radius) (size.2 - 1))
  let br : Coord := (min (center.1 + radius) (size.1 - 1), min (center.2 + radius) (size.2 - 1))
  (Rect.fromCorners tl br).iterIndices.filter
    (fun p => decide (p ≠ center ∧
      chebyshev ((p.1 : ℤ) - (center.1 : ℤ), (p.2 : ℤ) - (center.2 : ℤ)) ≤ radius))

/-! ### The solver state (`wave_function_collapse.rs`) -/

/-- One constructor per panic site of `wave_function_collapse.rs`:
* `assertZeroProb`: `assert!(*p != 0.0)` in the tile-selection loop of `regenerate`;
* `noTileSelected`: the `panic!()` of the `None => panic!()` arm of `regenerate`;
* `assertNotValid`: `assert!(!self.is_valid(pos))` at the top of `set_tile`;
* `assertCornerTL` / `assertCornerBR`: the two `assert!(... > 1)` corner checks
  at the end of `compute_probabilities`;
* `backtrackExhausted`: the `panic!()` of `backtrack` when `bombings_done`
  exceeds `max_bombings`. -/
inductive Panic where
  | assertZeroProb
  | noTileSelected
  | assertNotValid
  | assertCornerTL
  | assertCornerBR
  | backtrackExhausted
deriving DecidableEq

/-- The configuration fields of `WaveFunctionCollapse` relevant to the solver.
`N` (the const generic tile count) is `numTiles`; the random seed is replaced by
the abstract roll stream passed to `regenerate`. -/
structure Cfg where
  size : Coord
  numTiles : ℕ
  neighborhoodSize : ℕ
  bombRadius : ℕ
  maxBombings : ℕ

/-- The mutable state of `WaveFunctionCollapseResult`: the tile grid (tile
indices, via `usize::from`), the `valid` grid, the `W×H×N` probability tensor
(a vector per cell; only entries `< numTiles` are ever read), and the entropy
priority structure. `bombings_done` is threaded explicitly through the
functions that touch it (`regenerate` and `backtrack`); no other operation
reads it. -/
structure WfcState where
  tiles : Coord → ℕ
  valid : Coord → Bool
  probs : Coord → ℕ → ℚ
  entropy : List QEntry

/-- `NO_PROBABILITY`, the sentinel weight. -/
def NO_PROBABILITY : ℚ := -1

/-- The probability callback: the source callback receives a `Neighborhood`
view (a reference to the whole tile grid plus the queried position, with the
metric and radius fixed by the configuration), so it is modelled as an
arbitrary function of the tile grid and the position, returning the weight
vector. -/
abbrev Callback : Type := (Coord → ℕ) → Coord → ℕ → ℚ

/-- The entropy computation `-Σ p·log2 p` over a cell's probability vector,
abstracted (see the file comment). -/
abbrev EntFn : Type := (ℕ → ℚ) → ℚ

/-- `ps.iter().sum()` over the `N`-element weight array. -/
def psum (n : ℕ) (w : ℕ → ℚ) : ℚ := ((List.range n).map w).sum

/-- `update_probability`: build the neighborhood at `pos`, invoke the callback;
fail iff slot 0 holds the sentinel or the weight sum is not positive; on
success store the L1-normalized weights at `pos`. `none` is the `false` return
of the source (the sole contradiction signal). -/
def updateProbability (n : ℕ) (f : Callback) (tiles : Coord → ℕ) (pos : Coord)
    (probabilities : Coord → ℕ → ℚ) : Option (Coord → ℕ → ℚ) :=
  let ps := f tiles pos
  let s := psum n ps
  if ps 0 = NO_PROBABILITY ∨ s ≤ 0 then none
  else some (upd2 probabilities pos (fun i => ps i / s))

/-- The `filter(|x| **x > 0.0).count()` of the corner assertions of
`compute_probabilities`. -/
def positiveCount (n : ℕ) (w : ℕ → ℚ) : ℕ :=
  ((List.range n).filter (fun i => decide (0 < w i))).length

/-- The tile-selection loop of `regenerate` over one cell's probability vector:
walk indices in increasing order accumulating `p_sum`; at the first index with
`roll ≤ p_sum`, assert the entry is nonzero and select it; if the loop ends
without selecting, no tile is chosen. -/
def selectTileGo (w : ℕ → ℚ) (roll : ℚ) : List ℕ → ℚ → Except Panic (Option ℕ)
  | [], _ => .ok none
  | i :: rest, acc =>
    let acc' := acc + w i
    if roll ≤ acc' then
      if w i = 0 then .error .assertZeroProb else .ok (some i)
    else selectTileGo w roll rest acc'

/-- Tile selection over the `N` entries of a cell's probability vector. -/
def selectTile (n : ℕ) (w : ℕ → ℚ) (roll : ℚ) : Except Panic (Option ℕ) :=
  selectTileGo w roll (List.range n) 0

/-- The neighbor-update loop of `set_tile`: for each neighbor position in
order, skip it if already committed, otherwise re-evaluate its probability
(returning `false` for the whole call at the first failure, exactly as the
source's early `return false`) and refresh its entropy priority in place. -/
def setTileNeighbors (n : ℕ) (f : Callback) (ent : EntFn) :
    List Coord → WfcState → WfcState × Bool
  | [], s => (s, true)
  | q :: rest, s =>
    if s.valid q then setTileNeighbors n f ent rest s
    else
      match updateProbability n f s.tiles q s.probs with
      | none => (s, false)
      | some ps' =>
        setTileNeighbors n f ent rest
          { s with probs := ps', entropy := qchange s.entropy q (ent (ps' q)) }

/-- `set_tile`: assert the cell is not yet committed, write the tile and mark
the cell valid, re-evaluate all uncommitted neighbors (early `false` return on
a contradiction — note that in that case the cell's own probability vector is
*not* written), then force the cell's own vector to one-hot and return `true`. -/
def setTile (cfg : Cfg) (f : Callback) (ent : EntFn) (s : WfcState) (pos : Coord)
    (t : ℕ) : Except Panic (WfcState × Bool) :=
  if s.valid pos then .error .assertNotValid
  else
    let s0 : WfcState :=
      { s with tiles := upd2 s.tiles pos t, valid := upd2 s.valid pos true }
    match setTileNeighbors cfg.numTiles f ent
        (neighborPositions cfg.size pos cfg.neighborhoodSize) s0 with
    | (s1, false) => .ok (s1, false)
    | (s1, true) =>
      .ok ({ s1 with probs := upd2 s1.probs pos (fun i => if i = t then 1 else 0) }, true)

/-- The reset loop of `compute_probabilities`: set every cell of the rectangle
to the default (sentinel) tile and mark it not valid. -/
def resetRect (idxs : List Coord) (s : WfcState) : WfcState :=
  idxs.foldl (fun s q =>
    { s with tiles := upd2 s.tiles q 0, valid := upd2 s.valid q false }) s

/-- The evaluation loop of `compute_probabilities`: evaluate every cell of the
rectangle in order, returning `false` at the first failure (leaving the
remaining cells' stored vectors untouched, as the source's early return does). -/
def evalRect (n : ℕ) (f : Callback) : List Coord → WfcState → WfcState × Bool
  | [], s => (s, true)
  | q :: rest, s =>
    match updateProbability n f s.tiles q s.probs with
    | none => (s, false)
    | some ps' => evalRect n f rest { s with probs := ps' }

/-- `compute_probabilities`: reset the rectangle, evaluate all its cells (early
`false` return on failure — the corner assertions are then *not* reached),
then assert that the top-left and the bottom-right cell each have strictly more
than one strictly positive probability entry. -/
def computeProbabilities (cfg : Cfg) (f : Callback) (s : WfcState) (rect : Rect) :
    Except Panic (WfcState × Bool) :=
  let idxs := rect.iterIndices
  match evalRect cfg.numTiles f idxs (resetRect idxs s) with
  | (s2, false) => .ok (s2, false)
  | (s2, true) =>
    if positiveCount cfg.numTiles (s2.probs rect.topLeft) ≤ 1 then .error .assertCornerTL
    else if positiveCount cfg.numTiles (s2.probs rect.bottomRight) ≤ 1 then
      .error .assertCornerBR
    else .ok (s2, true)

/-- `compute_entropies`: push every cell of the rectangle with the entropy of
its current probability vector (`push` updates the priority of an existing
key). -/
def computeEntropies (ent : EntFn) (rect : Rect) (s : WfcState) : WfcState :=
  rect.iterIndices.foldl (fun s q =>
    { s with entropy := qpush s.entropy q (ent (s.probs q)) }) s

/-- The radius used by the bombing attempt number `done`:
`bomb_radius as u64 * 2u64.pow(done)`, truncated by the `radius as u32` cast at
the `Rect::around` call site. -/
def bombRadiusAt (cfg : Cfg) (done : ℕ) : ℕ := cfg.bombRadius * 2 ^ done % u32Mod

/-- The area reset by the bombing attempt number `done` of `backtrack`:
`Rect::around(pos, radius as u32).intersect(Rect::from_size(size))`. -/
def bombArea (cfg : Cfg) (pos : Coord) (done : ℕ) : Rect :=
  (Rect.around pos (bombRadiusAt cfg done)).intersect (Rect.fromSize cfg.size)

/-- The loop of `backtrack`. `done` is the current `bombings_done`; each
attempt increments it, fails fatally as soon as it exceeds `max_bombings`,
re-initializes the bomb area, retries with the doubled radius if that
re-initialization reports a contradiction, and on success recomputes the
entropies of the area and returns the new `bombings_done`. -/
def backtrackGo (cfg : Cfg) (f : Callback) (ent : EntFn) (pos : Coord) (done : ℕ)
    (s : WfcState) : Except Panic (ℕ × WfcState) :=
  let area := bombArea cfg pos done
  if _h : cfg.maxBombings < done + 1 then .error .backtrackExhausted
  else
    match computeProbabilities cfg f s area with
    | .error e => .error e
    | .ok (s', false) => backtrackGo cfg f ent pos (done + 1) s'
    | .ok (s', true) => .ok (done + 1, computeEntropies ent area s')
termination_by cfg.maxBombings + 1 - done
decreasing_by omega

theorem setTileNeighbors_entropy_length (n : ℕ) (f : Callback) (ent : EntFn) :
    ∀ (l : List Coord) (s : WfcState),
      ((setTileNeighbors n f ent l s).1).entropy.length = s.entropy.length := by
  intro l
  induction l with
  | nil => intro s; rfl
  | cons q rest ih =>
    intro s
    simp only [setTileNeighbors]
    by_cases hv : s.valid q
    · rw [if_pos hv]; exact ih s
    · rw [if_neg hv]
      cases hup : updateProbability n f s.tiles q s.probs with
      | none => rfl
      | some ps' =>
        rw [ih]
        simp [qchange_length]

theorem setTile_ok_entropy_length (cfg : Cfg) (f : Callback) (ent : EntFn)
    (s : WfcState) (pos : Coord) (t : ℕ) (s1 : WfcState) (b : Bool)
    (h : setTile cfg f ent s pos t = .ok (s1, b)) :
    s1.entropy.length = s.entropy.length := by
  unfold setTile at h
  by_cases hv : s.valid pos
  · rw [if_pos hv] at h; simp at h
  · rw [if_neg hv] at h
    cases hst : setTileNeighbors cfg.numTiles f ent
        (neighborPositions cfg.size pos cfg.neighborhoodSize)
        { s with tiles := upd2 s.tiles pos t, valid := upd2 s.valid pos true } with
    | mk s2 b2 =>
      have hlen : s2.entropy.length = s.entropy.length := by
        have h0 := setTileNeighbors_entropy_length cfg.numTiles f ent
          (neighborPositions cfg.size pos cfg.neighborhoodSize)
          { s with tiles := upd2 s.tiles pos t, valid := upd2 s.valid pos true }
        rw [hst] at h0
        exact h0
      cases b2 with
      | false =>
        simp only [hst] at h
        simp at h
        rcases h with ⟨⟨rfl, rfl⟩⟩
        exact hlen
      | true =>
        simp only [hst] at h
        simp at h
        rcases h with ⟨⟨rfl, rfl⟩⟩
        exact hlen

theorem backtrackGo_ok_bounds (cfg : Cfg) (f : Callback) (ent : EntFn) (pos : Coord) :
    ∀ (done : ℕ) (s : WfcState) (d2 : ℕ) (s2 : WfcState),
      backtrackGo cfg f ent pos done s = .ok (d2, s2) →
      done < d2 ∧ d2 ≤ cfg.maxBombings := by
  have key : ∀ (n done : ℕ) (s : WfcState) (d2 : ℕ) (s2 : WfcState),
      cfg.maxBombings + 1 - done ≤ n →
      backtrackGo cfg f ent pos done s = .ok (d2, s2) →
      done < d2 ∧ d2 ≤ cfg.maxBombings := by
    intro n
    induction n with
    | zero =>
      intro done s d2 s2 hn h
      unfold backtrackGo at h
      rw [dif_pos (by omega)] at h
      simp at h
    | succ n ihn =>
      intro done s d2 s2 hn h
      unfold backtrackGo at h
      by_cases hd : cfg.maxBombings < done + 1
      · rw [dif_pos hd] at h; simp at h
      · rw [dif_neg hd] at h
        cases hcp : computeProbabilities cfg f s (bombArea cfg pos done) with
        | error e => rw [hcp] at h; simp at h
        | ok sb =>
          obtain ⟨s', b⟩ := sb
          rw [hcp] at h
          cases b with
          | false =>
            simp only at h
            have := ihn (done + 1) s' d2 s2 (by omega) h
            omega
          | true =>
            simp only at h
            simp at h
            omega
  intro done s d2 s2 h
  exact key (cfg.maxBombings + 1 - done) done s d2 s2 le_rfl h

/-- The main loop of `regenerate` (steps 3–5 of the source's numbered
comments): pop the maximal-entropy tracked cell; if the structure is empty the
computation is done; otherwise draw the next roll, select a tile by walking the
cell's probability vector, commit it with `set_tile`, and on a failed commit
run the backtracking procedure; then iterate. `k` is the index of the next
roll, `done` the current `bombings_done`. -/
def regenerateGo (cfg : Cfg) (f : Callback) (ent : EntFn) (stream : ℕ → ℚ)
    (k done : ℕ) (s : WfcState) : Except Panic (ℕ × WfcState) :=
  match hpop : popMax s.entropy with
  | none => .ok (done, s)
  | some ((target, _e), rest) =>
    let s0 : WfcState := { s with entropy := rest }
    match selectTile cfg.numTiles (s0.probs target) (stream k) with
    | .error e => .error e
    | .ok none => .error .noTileSelected
    | .ok (some t) =>
      match hst : setTile cfg f ent s0 target t with
      | .error e => .error e
      | .ok (s1, true) => regenerateGo cfg f ent stream (k + 1) done s1
      | .ok (s1, false) =>
        match hbt : backtrackGo cfg f ent target done s1 with
        | .error e => .error e
        | .ok (d2, s2) => regenerateGo cfg f ent stream (k + 1) d2 s2
termination_by (cfg.maxBombings + 1 - done, s.entropy.length)
decreasing_by
  · have h1 := setTile_ok_entropy_length cfg f ent _ target t s1 true hst
    have h1' : s1.entropy.length = rest.length := h1
    have h2 := popMax_length s.entropy (target, _e) rest hpop
    apply Prod.Lex.right
    omega
  · have h3 := backtrackGo_ok_bounds cfg f ent target done s1 d2 s2 hbt
    apply Prod.Lex.left
    omega

/-- `regenerate`: reset `bombings_done` to 0, run the full-grid probability
pass — its `bool` result is *discarded*, mirroring the bare
`self.compute_probabilities(all);` statement of the source — then seed the
entropies of the full grid and run the main loop. Only the assertion panics
inside `compute_probabilities` abort here. -/
def regenerate (cfg : Cfg) (f : Callback) (ent : EntFn) (stream : ℕ → ℚ)
    (s : WfcState) : Except Panic (ℕ × WfcState) :=
  let all := Rect.fromSize cfg.size
  match computeProbabilities cfg f s all with
  | .error e => .error e
  | .ok (s1, _initOk) => regenerateGo cfg f ent stream 0 0 (computeEntropies ent all s1)

/-- The state produced by `build()`: default (sentinel) tiles, nothing valid,
every probability entry `NO_PROBABILITY`, empty priority structure,
`bombings_done = 0`. -/
def initState : WfcState :=
  { tiles := fun _ => 0
    valid := fun _ => false
    probs := fun _ _ => NO_PROBABILITY
    entropy := [] }

/-- `generate`: `build()` followed by `regenerate()`. The returned pair is the
final `bombings_done` and the final state. -/
def generate (cfg : Cfg) (f : Callback) (ent : EntFn) (stream : ℕ → ℚ) :
    Except Panic (ℕ × WfcState) :=
  regenerate cfg f ent stream initState

/-! ### Unfolding (step) lemmas for the two loops -/

theorem backtrackGo_exhaust (cfg : Cfg) (f : Callback) (ent : EntFn) (pos : Coord)
    (done : ℕ) (s : WfcState) (h : cfg.maxBombings < done + 1) :
    backtrackGo cfg f ent pos done s = .error .backtrackExhausted := by
  rw [backtrackGo.eq_1]
  simp only [dif_pos h]

theorem backtrackGo_cp_err (cfg : Cfg) (f : Callback) (ent : EntFn) (pos : Coord)
    (done : ℕ) (s : WfcState) (pe : Panic) (hd : ¬ cfg.maxBombings < done + 1)
    (hcp : computeProbabilities cfg f s (bombArea cfg pos done) = .error pe) :
    backtrackGo cfg f ent pos done s = .error pe := by
  rw [backtrackGo.eq_1]
  simp only [dif_neg hd, hcp]

theorem backtrackGo_retry (cfg : Cfg) (f : Callback) (ent : EntFn) (pos : Coord)
    (done : ℕ) (s s' : WfcState) (hd : ¬ cfg.maxBombings < done + 1)
    (hcp : computeProbabilities cfg f s (bombArea cfg pos done) = .ok (s', false)) :
    backtrackGo cfg f ent pos done s = backtrackGo cfg f ent pos (done + 1) s' := by
  rw [backtrackGo.eq_1]
  simp only [dif_neg hd, hcp]

theorem backtrackGo_success (cfg : Cfg) (f : Callback) (ent : EntFn) (pos : Coord)
    (done : ℕ) (s s' : WfcState) (hd : ¬ cfg.maxBombings < done + 1)
    (hcp : computeProbabilities cfg f s (bombArea cfg pos done) = .ok (s', true)) :
    backtrackGo cfg f ent pos done s =
      .ok (done + 1, computeEntropies ent (bombArea cfg pos done) s') := by
  rw [backtrackGo.eq_1]
  simp only [dif_neg hd, hcp]

theorem regenerateGo_pop_none (cfg : Cfg) (f : Callback) (ent : EntFn) (stream : ℕ → ℚ)
    (k done : ℕ) (s : WfcState) (h : popMax s.entropy = none) :
    regenerateGo cfg f ent stream k done s = .ok (done, s) := by
  rw [regenerateGo.eq_1, h]

theorem regenerateGo_sel_err (cfg : Cfg) (f : Callback) (ent : EntFn) (stream : ℕ → ℚ)
    (k done : ℕ) (s : WfcState) (target : Coord) (e : ℚ) (rest : List QEntry) (pe : Panic)
    (hpop : popMax s.entropy = some ((target, e), rest))
    (hsel : selectTile cfg.numTiles (s.probs target) (stream k) = .error pe) :
    regenerateGo cfg f ent stream k done s = .error pe := by
  rw [regenerateGo.eq_1, hpop]
  simp only [hsel]

theorem regenerateGo_sel_none (cfg : Cfg) (f : Callback) (ent : EntFn) (stream : ℕ → ℚ)
    (k done : ℕ) (s : WfcState) (target : Coord) (e : ℚ) (rest : List QEntry)
    (hpop : popMax s.entropy = some ((target, e), rest))
    (hsel : selectTile cfg.numTiles (s.probs target) (stream k) = .ok none) :
    regenerateGo cfg f ent stream k done s = .error .noTileSelected := by
  rw [regenerateGo.eq_1, hpop]
  simp only [hsel]

theorem regenerateGo_set_err (cfg : Cfg) (f : Callback) (ent : EntFn) (stream : ℕ → ℚ)
    (k done : ℕ) (s : WfcState) (target : Coord) (e : ℚ) (rest : List QEntry) (t : ℕ)
    (pe : Panic)
    (hpop : popMax s.entropy = some ((target, e), rest))
    (hsel : selectTile cfg.numTiles (s.probs target) (stream k) = .ok (some t))
    (hst : setTile cfg f ent { s with entropy := rest } target t = .error pe) :
    regenerateGo cfg f ent stream k done s = .error pe := by
  rw [regenerateGo.eq_1, hpop]
  simp only [hsel]
  split <;> simp_all

theorem regenerateGo_set_ok (cfg : Cfg) (f : Callback) (ent : EntFn) (stream : ℕ → ℚ)
    (k done : ℕ) (s : WfcState) (target : Coord) (e : ℚ) (rest : List QEntry) (t : ℕ)
    (s1 : WfcState)
    (hpop : popMax s.entropy = some ((target, e), rest))
    (hsel : selectTile cfg.numTiles (s.probs target) (stream k) = .ok (some t))
    (hst : setTile cfg f ent { s with entropy := rest } target t = .ok (s1, true)) :
    regenerateGo cfg f ent stream k done s = regenerateGo cfg f ent stream (k + 1) done s1 := by
  rw [regenerateGo.eq_1, hpop]
  simp only [hsel]
  split <;> simp_all

theorem regenerateGo_bt_err (cfg : Cfg) (f : Callback) (ent : EntFn) (stream : ℕ → ℚ)
    (k done : ℕ) (s : WfcState) (target : Coord) (e : ℚ) (rest : List QEntry) (t : ℕ)
    (s1 : WfcState) (pe : Panic)
    (hpop : popMax s.entropy = some ((target, e), rest))
    (hsel : selectTile cfg.numTiles (s.probs target) (stream k) = .ok (some t))
    (hst : setTile cfg f ent { s with entropy := rest } target t = .ok (s1, false))
    (hbt : backtrackGo cfg f ent target done s1 = .error pe) :
    regenerateGo cfg f ent stream k done s = .error pe := by
  rw [regenerateGo.eq_1, hpop]
  simp only [hsel]
  split <;> simp_all
  split <;> simp_all

theorem regenerateGo_bt_ok (cfg : Cfg) (f : Callback) (ent : EntFn) (stream : ℕ → ℚ)
    (k done : ℕ) (s : WfcState) (target : Coord) (e : ℚ) (rest : List QEntry) (t : ℕ)
    (s1 : WfcState) (d2 : ℕ) (s2 : WfcState)
    (hpop : popMax s.entropy = some ((target, e), rest))
    (hsel : selectTile cfg.numTiles (s.probs target) (stream k) = .ok (some t))
    (hst : setTile cfg f ent { s with entropy := rest } target t = .ok (s1, false))
    (hbt : backtrackGo cfg f ent target done s1 = .ok (d2, s2)) :
    regenerateGo cfg f ent stream k done s = regenerateGo cfg f ent stream (k + 1) d2 s2 := by
  rw [regenerateGo.eq_1, hpop]
  simp only [hsel]
  split <;> simp_all
  split <;> simp_all

/-! ### Bookkeeping lemmas for the state operations -/

/-- The one-hot probability vector written by a commit. -/
def onehot (t : ℕ) : ℕ → ℚ := fun i => if i = t then 1 else 0

theorem updateProbability_none_iff (n : ℕ) (f : Callback) (tiles : Coord → ℕ)
    (pos : Coord) (probabilities : Coord → ℕ → ℚ) :
    updateProbability n f tiles pos probabilities = none ↔
      (f tiles pos 0 = NO_PROBABILITY ∨ psum n (f tiles pos) ≤ 0) := by
  unfold updateProbability
  by_cases h : f tiles pos 0 = NO_PROBABILITY ∨ psum n (f tiles pos) ≤ 0
  · rw [if_pos h]; simp [h]
  · rw [if_neg h]; simp [h]

theorem updateProbability_some_eq (n : ℕ) (f : Callback) (tiles : Coord → ℕ)
    (pos : Coord) (probabilities : Coord → ℕ → ℚ) (ps' : Coord → ℕ → ℚ)
    (h : updateProbability n f tiles pos probabilities = some ps') :
    ps' = upd2 probabilities pos (fun i => f tiles pos i / psum n (f tiles pos)) := by
  unfold updateProbability at h
  by_cases hc : f tiles pos 0 = NO_PROBABILITY ∨ psum n (f tiles pos) ≤ 0
  · rw [if_pos hc] at h; simp at h
  · rw [if_neg hc] at h; simp at h; exact h.symm

theorem resetRect_tiles (l : List Coord) (s : WfcState) (p : Coord) :
    (resetRect l s).tiles p = if p ∈ l then 0 else s.tiles p := by
  induction l generalizing s with
  | nil => simp [resetRect]
  | cons q rest ih =>
    show (resetRect rest _).tiles p = _
    rw [ih]
    by_cases hq : p = q
    · subst hq
      by_cases hr : p ∈ rest <;> simp [hr, upd2_same]
    · by_cases hr : p ∈ rest <;> simp [hr, hq, upd2_other _ _ _ _ hq]

theorem resetRect_valid (l : List Coord) (s : WfcState) (p : Coord) :
    (resetRect l s).valid p = if p ∈ l then false else s.valid p := by
  induction l generalizing s with
  | nil => simp [resetRect]
  | cons q rest ih =>
    show (resetRect rest _).valid p = _
    rw [ih]
    by_cases hq : p = q
    · subst hq
      by_cases hr : p ∈ rest <;> simp [hr, upd2_same]
    · by_cases hr : p ∈ rest <;> simp [hr, hq, upd2_other _ _ _ _ hq]

theorem resetRect_probs (l : List Coord) (s : WfcState) :
    (resetRect l s).probs = s.probs := by
  induction l generalizing s with
  | nil => rfl
  | cons q rest ih =>
    show (resetRect rest _).probs = _
    rw [ih]

theorem resetRect_entropy (l : List Coord) (s : WfcState) :
    (resetRect l s).entropy = s.entropy := by
  induction l generalizing s with
  | nil => rfl
  | cons q rest ih =>
    show (resetRect rest _).entropy = _
    rw [ih]

theorem evalRect_tiles (n : ℕ) (f : Callback) (l : List Coord) (s : WfcState) :
    ((evalRect n f l s).1).tiles = s.tiles := by
  induction l generalizing s with
  | nil => rfl
  | cons q rest ih =>
    simp only [evalRect]
    cases hup : updateProbability n f s.tiles q s.probs with
    | none => rfl
    | some ps' => rw [ih]

theorem evalRect_valid (n : ℕ) (f : Callback) (l : List Coord) (s : WfcState) :
    ((evalRect n f l s).1).valid = s.valid := by
  induction l generalizing s with
  | nil => rfl
  | cons q rest ih =>
    simp only [evalRect]
    cases hup : updateProbability n f s.tiles q s.probs with
    | none => rfl
    | some ps' => rw [ih]

theorem evalRect_entropy (n : ℕ) (f : Callback) (l : List Coord) (s : WfcState) :
    ((evalRect n f l s).1).entropy = s.entropy := by
  induction l generalizing s with
  | nil => rfl
  | cons q rest ih =>
    simp only [evalRect]
    cases hup : updateProbability n f s.tiles q s.probs with
    | none => rfl
    | some ps' => rw [ih]

theorem evalRect_probs_outside (n : ℕ) (f : Callback) (l : List Coord) (s : WfcState)
    (p : Coord) (hp : p ∉ l) : ((evalRect n f l s).1).probs p = s.probs p := by
  induction l generalizing s with
  | nil => rfl
  | cons q rest ih =>
    simp only [evalRect]
    cases hup : updateProbability n f s.tiles q s.probs with
    | none => rfl
    | some ps' =>
      have hq : p ≠ q := fun hc => hp (hc ▸ List.mem_cons_self q rest)
      have hr : p ∉ rest := fun hc => hp (List.mem_cons_of_mem q hc)
      rw [ih _ hr]
      show ps' p = s.probs p
      rw [updateProbability_some_eq n f s.tiles q s.probs ps' hup]
      exact upd2_other _ _ _ _ hq

theorem evalRect_slot0 (n : ℕ) (f : Callback) (hcb : ∀ g p, f g p 0 = 0)
    (l : List Coord) (s : WfcState) (h0 : ∀ p, s.probs p 0 ≤ 0) :
    ∀ p, ((evalRect n f l s).1).probs p 0 ≤ 0 := by
  induction l generalizing s with
  | nil => exact h0
  | cons q rest ih =>
    intro p
    simp only [evalRect]
    cases hup : updateProbability n f s.tiles q s.probs with
    | none => exact h0 p
    | some ps' =>
      refine ih _ ?_ p
      intro p'
      show ps' p' 0 ≤ 0
      rw [updateProbability_some_eq n f s.tiles q s.probs ps' hup]
      by_cases hq : p' = q
      · subst hq
        rw [upd2_same]
        rw [hcb]
        simp
      · rw [upd2_other _ _ _ _ hq]
        exact h0 p'

theorem computeProbabilities_ok_state (cfg : Cfg) (f : Callback) (s : WfcState)
    (rect : Rect) (s2 : WfcState) (b : Bool)
    (h : computeProbabilities cfg f s rect = .ok (s2, b)) :
    s2 = (evalRect cfg.numTiles f rect.iterIndices (resetRect rect.iterIndices s)).1 := by
  unfold computeProbabilities at h
  simp only [] at h
  cases he : evalRect cfg.numTiles f rect.iterIndices (resetRect rect.iterIndices s) with
  | mk s3 b3 =>
    rw [he] at h
    cases b3 with
    | false => simp at h; rw [← h.1]
    | true =>
      simp only at h
      by_cases h1 : positiveCount cfg.numTiles (s3.probs rect.topLeft) ≤ 1
      · rw [if_pos h1] at h; simp at h
      · rw [if_neg h1] at h
        by_cases h2 : positiveCount cfg.numTiles (s3.probs rect.bottomRight) ≤ 1
        · rw [if_pos h2] at h; simp at h
        · rw [if_neg h2] at h; simp at h; rw [← h.1]

theorem computeProbabilities_tiles (cfg : Cfg) (f : Callback) (s : WfcState)
    (rect : Rect) (s2 : WfcState) (b : Bool)
    (h : computeProbabilities cfg f s rect = .ok (s2, b)) (p : Coord) :
    s2.tiles p = if p ∈ rect.iterIndices then 0 else s.tiles p := by
  rw [computeProbabilities_ok_state cfg f s rect s2 b h, evalRect_tiles, resetRect_tiles]

theorem computeProbabilities_valid (cfg : Cfg) (f : Callback) (s : WfcState)
    (rect : Rect) (s2 : WfcState) (b : Bool)
    (h : computeProbabilities cfg f s rect = .ok (s2, b)) (p : Coord) :
    s2.valid p = if p ∈ rect.iterIndices then false else s.valid p := by
  rw [computeProbabilities_ok_state cfg f s rect s2 b h, evalRect_valid, resetRect_valid]

theorem computeProbabilities_entropy (cfg : Cfg) (f : Callback) (s : WfcState)
    (rect : Rect) (s2 : WfcState) (b : Bool)
    (h : computeProbabilities cfg f s rect = .ok (s2, b)) :
    s2.entropy = s.entropy := by
  rw [computeProbabilities_ok_state cfg f s rect s2 b h, evalRect_entropy, resetRect_entropy]

theorem computeProbabilities_probs_outside (cfg : Cfg) (f : Callback) (s : WfcState)
    (rect : Rect) (s2 : WfcState) (b : Bool)
    (h : computeProbabilities cfg f s rect = .ok (s2, b)) (p : Coord)
    (hp : p ∉ rect.iterIndices) : s2.probs p = s.probs p := by
  rw [computeProbabilities_ok_state cfg f s rect s2 b h,
      evalRect_probs_outside _ _ _ _ _ hp, resetRect_probs]

theorem computeProbabilities_slot0 (cfg : Cfg) (f : Callback)
    (hcb : ∀ g p, f g p 0 = 0) (s : WfcState) (rect : Rect) (s2 : WfcState) (b : Bool)
    (h : computeProbabilities cfg f s rect = .ok (s2, b)) (h0 : ∀ p, s.probs p 0 ≤ 0) :
    ∀ p, s2.probs p 0 ≤ 0 := by
  rw [computeProbabilities_ok_state cfg f s rect s2 b h]
  refine evalRect_slot0 cfg.numTiles f hcb _ _ ?_
  rw [resetRect_probs]
  exact h0

theorem computeEntropies_tiles (ent : EntFn) (rect : Rect) (s : WfcState) :
    (computeEntropies ent rect s).tiles = s.tiles := by
  unfold computeEntropies
  generalize rect.iterIndices = l
  induction l generalizing s with
  | nil => rfl
  | cons q rest ih => exact ih _

theorem computeEntropies_valid (ent : EntFn) (rect : Rect) (s : WfcState) :
    (computeEntropies ent rect s).valid = s.valid := by
  unfold computeEntropies
  generalize rect.iterIndices = l
  induction l generalizing s with
  | nil => rfl
  | cons q rest ih => exact ih _

theorem computeEntropies_probs (ent : EntFn) (rect : Rect) (s : WfcState) :
    (computeEntropies ent rect s).probs = s.probs := by
  unfold computeEntropies
  generalize rect.iterIndices = l
  induction l generalizing s with
  | nil => rfl
  | cons q rest ih => exact ih _

theorem computeEntropies_keys (ent : EntFn) (rect : Rect) (s : WfcState) :
    ∀ x ∈ (computeEntropies ent rect s).entropy,
      (∃ y ∈ s.entropy, y.1 = x.1) ∨ x.1 ∈ rect.iterIndices := by
  unfold computeEntropies
  have key : ∀ (l : List Coord) (s : WfcState),
      ∀ x ∈ (l.foldl (fun s q =>
        { s with entropy := qpush s.entropy q (ent (s.probs q)) }) s).entropy,
        (∃ y ∈ s.entropy, y.1 = x.1) ∨ x.1 ∈ l := by
    intro l
    induction l with
    | nil => intro s x hx; exact Or.inl ⟨x, hx, rfl⟩
    | cons q rest ih =>
      intro s x hx
      rcases ih _ x hx with h1 | h2
      · obtain ⟨y, hy, hk⟩ := h1
        rcases qpush_keys s.entropy q (ent (s.probs q)) y hy with ⟨z, hz, hzk⟩ | hq
        · exact Or.inl ⟨z, hz, hzk.trans hk⟩
        · right; rw [← hk, hq]; simp
      · right; simp [h2]
  intro x hx
  exact key rect.iterIndices s x hx

theorem computeEntropies_hasKey_mono (ent : EntFn) (rect : Rect) (s : WfcState)
    (p : Coord) (h : hasKey s.entropy p) :
    hasKey (computeEntropies ent rect s).entropy p := by
  unfold computeEntropies
  have key : ∀ (l : List Coord) (s : WfcState), hasKey s.entropy p →
      hasKey ((l.foldl (fun s q =>
        { s with entropy := qpush s.entropy q (ent (s.probs q)) }) s)).entropy p := by
    intro l
    induction l with
    | nil => intro s h; exact h
    | cons q rest ih =>
      intro s h
      exact ih _ (qpush_hasKey_mono _ _ _ _ h)
  exact key rect.iterIndices s h

theorem computeEntropies_hasKey_of_mem (ent : EntFn) (rect : Rect) (s : WfcState)
    (p : Coord) (h : p ∈ rect.iterIndices) :
    hasKey (computeEntropies ent rect s).entropy p := by
  unfold computeEntropies
  have key : ∀ (l : List Coord) (s : WfcState), p ∈ l →
      hasKey ((l.foldl (fun s q =>
        { s with entropy := qpush s.entropy q (ent (s.probs q)) }) s)).entropy p := by
    intro l
    induction l with
    | nil => intro s h; simp at h
    | cons q rest ih =>
      intro s hmem
      rcases List.mem_cons.mp hmem with rfl | hr
      · -- p is pushed here; later folds preserve the key
        have key2 : ∀ (l' : List Coord) (s' : WfcState), hasKey s'.entropy p →
            hasKey ((l'.foldl (fun s q =>
              { s with entropy := qpush s.entropy q (ent (s.probs q)) }) s')).entropy p := by
          intro l'
          induction l' with
          | nil => intro s' h'; exact h'
          | cons q' rest' ih' =>
            intro s' h'
            exact ih' _ (qpush_hasKey_mono _ _ _ _ h')
        exact key2 rest _ (qpush_hasKey_self _ _ _)
      · exact ih _ hr
  exact key rect.iterIndices s h

theorem setTileNeighbors_tiles (n : ℕ) (f : Callback) (ent : EntFn) (l : List Coord)
    (s : WfcState) : ((setTileNeighbors n f ent l s).1).tiles = s.tiles := by
  induction l generalizing s with
  | nil => rfl
  | cons q rest ih =>
    simp only [setTileNeighbors]
    by_cases hv : s.valid q
    · rw [if_pos hv]; exact ih s
    · rw [if_neg hv]
      cases hup : updateProbability n f s.tiles q s.probs with
      | none => rfl
      | some ps' => rw [ih]

theorem setTileNeighbors_valid (n : ℕ) (f : Callback) (ent : EntFn) (l : List Coord)
    (s : WfcState) : ((setTileNeighbors n f ent l s).1).valid = s.valid := by
  induction l generalizing s with
  | nil => rfl
  | cons q rest ih =>
    simp only [setTileNeighbors]
    by_cases hv : s.valid q
    · rw [if_pos hv]; exact ih s
    · rw [if_neg hv]
      cases hup : updateProbability n f s.tiles q s.probs with
      | none => rfl
      | some ps' => rw [ih]

theorem setTileNeighbors_probs_valid (n : ℕ) (f : Callback) (ent : EntFn)
    (l : List Coord) (s : WfcState) (p : Coord) (hp : s.valid p = true) :
    ((setTileNeighbors n f ent l s).1).probs p = s.probs p := by
  induction l generalizing s with
  | nil => rfl
  | cons q rest ih =>
    simp only [setTileNeighbors]
    by_cases hv : s.valid q
    · rw [if_pos hv]; exact ih s hp
    · rw [if_neg hv]
      cases hup : updateProbability n f s.tiles q s.probs with
      | none => rfl
      | some ps' =>
        show ((setTileNeighbors n f ent rest
          { s with probs := ps', entropy := qchange s.entropy q (ent (ps' q)) }).1).probs p
            = s.probs p
        rw [ih { s with probs := ps', entropy := qchange s.entropy q (ent (ps' q)) } hp]
        show ps' p = s.probs p
        rw [updateProbability_some_eq n f s.tiles q s.probs ps' hup]
        refine upd2_other _ _ _ _ ?_
        intro hc
        rw [hc] at hp
        rw [hp] at hv
        exact hv rfl

theorem setTileNeighbors_slot0 (n : ℕ) (f : Callback) (hcb : ∀ g p, f g p 0 = 0)
    (ent : EntFn) (l : List Coord) (s : WfcState) (h0 : ∀ p, s.probs p 0 ≤ 0) :
    ∀ p, ((setTileNeighbors n f ent l s).1).probs p 0 ≤ 0 := by
  induction l generalizing s with
  | nil => exact h0
  | cons q rest ih =>
    intro p
    simp only [setTileNeighbors]
    by_cases hv : s.valid q
    · rw [if_pos hv]; exact ih s h0 p
    · rw [if_neg hv]
      cases hup : updateProbability n f s.tiles q s.probs with
      | none => exact h0 p
      | some ps' =>
        show ((setTileNeighbors n f ent rest
          { s with probs := ps', entropy := qchange s.entropy q (ent (ps' q)) }).1).probs p 0 ≤ 0
        refine ih _ ?_ p
        intro p'
        show ps' p' 0 ≤ 0
        rw [updateProbability_some_eq n f s.tiles q s.probs ps' hup]
        by_cases hq : p' = q
        · subst hq; rw [upd2_same, hcb]; simp
        · rw [upd2_other _ _ _ _ hq]; exact h0 p'

theorem setTileNeighbors_hasKey (n : ℕ) (f : Callback) (ent : EntFn) (l : List Coord)
    (s : WfcState) (p : Coord) :
    hasKey ((setTileNeighbors n f ent l s).1).entropy p ↔ hasKey s.entropy p := by
  induction l generalizing s with
  | nil => exact Iff.rfl
  | cons q rest ih =>
    simp only [setTileNeighbors]
    by_cases hv : s.valid q
    · rw [if_pos hv]; exact ih s
    · rw [if_neg hv]
      cases hup : updateProbability n f s.tiles q s.probs with
      | none => exact Iff.rfl
      | some ps' =>
        show hasKey ((setTileNeighbors n f ent rest
          { s with probs := ps', entropy := qchange s.entropy q (ent (ps' q)) }).1).entropy p
            ↔ hasKey s.entropy p
        rw [ih]
        exact qchange_hasKey _ _ _ _

theorem setTileNeighbors_keys (n : ℕ) (f : Callback) (ent : EntFn) (l : List Coord)
    (s : WfcState) :
    ∀ x ∈ ((setTileNeighbors n f ent l s).1).entropy, ∃ y ∈ s.entropy, y.1 = x.1 := by
  induction l generalizing s with
  | nil => intro x hx; exact ⟨x, hx, rfl⟩
  | cons q rest ih =>
    intro x hx
    simp only [setTileNeighbors] at hx
    by_cases hv : s.valid q
    · rw [if_pos hv] at hx; exact ih s x hx
    · rw [if_neg hv] at hx
      cases hup : updateProbability n f s.tiles q s.probs with
      | none => rw [hup] at hx; exact ⟨x, hx, rfl⟩
      | some ps' =>
        rw [hup] at hx
        have hx' : x ∈ ((setTileNeighbors n f ent rest
          { s with probs := ps', entropy := qchange s.entropy q (ent (ps' q)) }).1).entropy := hx
        obtain ⟨y, hy, hk⟩ := ih _ x hx'
        obtain ⟨z, hz, hzk⟩ := qchange_keys _ _ _ y hy
        exact ⟨z, hz, hzk.trans hk⟩

theorem setTile_ok_not_valid (cfg : Cfg) (f : Callback) (ent : EntFn) (s : WfcState)
    (pos : Coord) (t : ℕ) (s1 : WfcState) (b : Bool)
    (h : setTile cfg f ent s pos t = .ok (s1, b)) : s.valid pos = false := by
  unfold setTile at h
  by_cases hv : s.valid pos
  · rw [if_pos hv] at h; simp at h
  · rw [if_neg hv] at h; simpa using hv

theorem setTile_false_spec (cfg : Cfg) (f : Callback) (ent : EntFn) (s : WfcState)
    (pos : Coord) (t : ℕ) (s1 : WfcState)
    (h : setTile cfg f ent s pos t = .ok (s1, false)) :
    setTileNeighbors cfg.numTiles f ent (neighborPositions cfg.size pos cfg.neighborhoodSize)
      { s with tiles := upd2 s.tiles pos t, valid := upd2 s.valid pos true } = (s1, false) := by
  unfold setTile at h
  by_cases hv : s.valid pos
  · rw [if_pos hv] at h; simp at h
  · rw [if_neg hv] at h
    cases hst : setTileNeighbors cfg.numTiles f ent
        (neighborPositions cfg.size pos cfg.neighborhoodSize)
        { s with tiles := upd2 s.tiles pos t, valid := upd2 s.valid pos true } with
    | mk s2 b2 =>
      cases b2 with
      | false =>
        simp only [hst] at h
        simp at h
        rw [h]
      | true =>
        simp only [hst] at h
        simp at h

theorem setTile_true_spec (cfg : Cfg) (f : Callback) (ent : EntFn) (s : WfcState)
    (pos : Coord) (t : ℕ) (s1 : WfcState)
    (h : setTile cfg f ent s pos t = .ok (s1, true)) :
    ∃ s2, setTileNeighbors cfg.numTiles f ent
        (neighborPositions cfg.size pos cfg.neighborhoodSize)
        { s with tiles := upd2 s.tiles pos t, valid := upd2 s.valid pos true } = (s2, true) ∧
      s1 = { s2 with probs := upd2 s2.probs pos (onehot t) } := by
  unfold setTile at h
  by_cases hv : s.valid pos
  · rw [if_pos hv] at h; simp at h
  · rw [if_neg hv] at h
    cases hst : setTileNeighbors cfg.numTiles f ent
        (neighborPositions cfg.size pos cfg.neighborhoodSize)
        { s with tiles := upd2 s.tiles pos t, valid := upd2 s.valid pos true } with
    | mk s2 b2 =>
      cases b2 with
      | false =>
        simp only [hst] at h
        simp at h
      | true =>
        simp only [hst] at h
        simp at h
        exact ⟨s2, rfl, h.symm⟩

theorem setTile_tiles (cfg : Cfg) (f : Callback) (ent : EntFn) (s : WfcState)
    (pos : Coord) (t : ℕ) (s1 : WfcState) (b : Bool)
    (h : setTile cfg f ent s pos t = .ok (s1, b)) :
    s1.tiles = upd2 s.tiles pos t := by
  cases b with
  | false =>
    have hs := setTile_false_spec cfg f ent s pos t s1 h
    have := setTileNeighbors_tiles cfg.numTiles f ent
      (neighborPositions cfg.size pos cfg.neighborhoodSize)
      { s with tiles := upd2 s.tiles pos t, valid := upd2 s.valid pos true }
    rw [hs] at this
    exact this
  | true =>
    obtain ⟨s2, hs2, hs1⟩ := setTile_true_spec cfg f ent s pos t s1 h
    have := setTileNeighbors_tiles cfg.numTiles f ent
      (neighborPositions cfg.size pos cfg.neighborhoodSize)
      { s with tiles := upd2 s.tiles pos t, valid := upd2 s.valid pos true }
    rw [hs2] at this
    rw [hs1]
    exact this

theorem setTile_valid (cfg : Cfg) (f : Callback) (ent : EntFn) (s : WfcState)
    (pos : Coord) (t : ℕ) (s1 : WfcState) (b : Bool)
    (h : setTile cfg f ent s pos t = .ok (s1, b)) :
    s1.valid = upd2 s.valid pos true := by
  cases b with
  | false =>
    have hs := setTile_false_spec cfg f ent s pos t s1 h
    have := setTileNeighbors_valid cfg.numTiles f ent
      (neighborPositions cfg.size pos cfg.neighborhoodSize)
      { s with tiles := upd2 s.tiles pos t, valid := upd2 s.valid pos true }
    rw [hs] at this
    exact this
  | true =>
    obtain ⟨s2, hs2, hs1⟩ := setTile_true_spec cfg f ent s pos t s1 h
    have := setTileNeighbors_valid cfg.numTiles f ent
      (neighborPositions cfg.size pos cfg.neighborhoodSize)
      { s with tiles := upd2 s.tiles pos t, valid := upd2 s.valid pos true }
    rw [hs2] at this
    rw [hs1]
    exact this

theorem setTile_true_probs_pos (cfg : Cfg) (f : Callback) (ent : EntFn) (s : WfcState)
    (pos : Coord) (t : ℕ) (s1 : WfcState)
    (h : setTile cfg f ent s pos t = .ok (s1, true)) :
    s1.probs pos = onehot t := by
  obtain ⟨s2, hs2, hs1⟩ := setTile_true_spec cfg f ent s pos t s1 h
  rw [hs1]
  exact upd2_same _ _ _

theorem setTile_probs_valid_other (cfg : Cfg) (f : Callback) (ent : EntFn) (s : WfcState)
    (pos : Coord) (t : ℕ) (s1 : WfcState) (b : Bool)
    (h : setTile cfg f ent s pos t = .ok (s1, b)) (q : Coord)
    (hq : s.valid q = true) (hqp : q ≠ pos) : s1.probs q = s.probs q := by
  have hkey : ((setTileNeighbors cfg.numTiles f ent
      (neighborPositions cfg.size pos cfg.neighborhoodSize)
      { s with tiles := upd2 s.tiles pos t, valid := upd2 s.valid pos true }).1).probs q
        = s.probs q := by
    refine setTileNeighbors_probs_valid cfg.numTiles f ent _ _ q ?_
    show upd2 s.valid pos true q = true
    rw [upd2_other _ _ _ _ hqp]
    exact hq
  cases b with
  | false =>
    have hs := setTile_false_spec cfg f ent s pos t s1 h
    rw [hs] at hkey
    exact hkey
  | true =>
    obtain ⟨s2, hs2, hs1⟩ := setTile_true_spec cfg f ent s pos t s1 h
    rw [hs2] at hkey
    rw [hs1]
    show upd2 s2.probs pos (onehot t) q = s.probs q
    rw [upd2_other _ _ _ _ hqp]
    exact hkey

theorem setTile_slot0 (cfg : Cfg) (f : Callback) (hcb : ∀ g p, f g p 0 = 0) (ent : EntFn)
    (s : WfcState) (pos : Coord) (t : ℕ) (ht : 1 ≤ t) (s1 : WfcState) (b : Bool)
    (h : setTile cfg f ent s pos t = .ok (s1, b)) (h0 : ∀ p, s.probs p 0 ≤ 0) :
    ∀ p, s1.probs p 0 ≤ 0 := by
  have hstn := setTileNeighbors_slot0 cfg.numTiles f hcb ent
    (neighborPositions cfg.size pos cfg.neighborhoodSize)
    { s with tiles := upd2 s.tiles pos t, valid := upd2 s.valid pos true } h0
  cases b with
  | false =>
    have hs := setTile_false_spec cfg f ent s pos t s1 h
    rw [hs] at hstn
    exact hstn
  | true =>
    obtain ⟨s2, hs2, hs1⟩ := setTile_true_spec cfg f ent s pos t s1 h
    rw [hs2] at hstn
    intro p
    rw [hs1]
    show upd2 s2.probs pos (onehot t) p 0 ≤ 0
    by_cases hp : p = pos
    · subst hp
      rw [upd2_same]
      unfold onehot
      rw [if_neg (by omega)]
    · rw [upd2_other _ _ _ _ hp]
      exact hstn p

theorem setTile_hasKey (cfg : Cfg) (f : Callback) (ent : EntFn) (s : WfcState)
    (pos : Coord) (t : ℕ) (s1 : WfcState) (b : Bool)
    (h : setTile cfg f ent s pos t = .ok (s1, b)) (p : Coord) :
    hasKey s1.entropy p ↔ hasKey s.entropy p := by
  have hstn := setTileNeighbors_hasKey cfg.numTiles f ent
    (neighborPositions cfg.size pos cfg.neighborhoodSize)
    { s with tiles := upd2 s.tiles pos t, valid := upd2 s.valid pos true } p
  cases b with
  | false =>
    have hs := setTile_false_spec cfg f ent s pos t s1 h
    rw [hs] at hstn
    exact hstn
  | true =>
    obtain ⟨s2, hs2, hs1⟩ := setTile_true_spec cfg f ent s pos t s1 h
    rw [hs2] at hstn
    rw [hs1]
    exact hstn

theorem setTile_keys (cfg : Cfg) (f : Callback) (ent : EntFn) (s : WfcState)
    (pos : Coord) (t : ℕ) (s1 : WfcState) (b : Bool)
    (h : setTile cfg f ent s pos t = .ok (s1, b)) :
    ∀ x ∈ s1.entropy, ∃ y ∈ s.entropy, y.1 = x.1 := by
  have hstn := setTileNeighbors_keys cfg.numTiles f ent
    (neighborPositions cfg.size pos cfg.neighborhoodSize)
    { s with tiles := upd2 s.tiles pos t, valid := upd2 s.valid pos true }
  cases b with
  | false =>
    have hs := setTile_false_spec cfg f ent s pos t s1 h
    rw [hs] at hstn
    exact hstn
  | true =>
    obtain ⟨s2, hs2, hs1⟩ := setTile_true_spec cfg f ent s pos t s1 h
    rw [hs2] at hstn
    rw [hs1]
    exact hstn

theorem selectTileGo_ok_some (w : ℕ → ℚ) (roll : ℚ) :
    ∀ (l : List ℕ) (acc : ℚ) (i : ℕ),
      selectTileGo w roll l acc = .ok (some i) → i ∈ l ∧ w i ≠ 0 := by
  intro l
  induction l with
  | nil => intro acc i h; simp [selectTileGo] at h
  | cons j rest ih =>
    intro acc i h
    simp only [selectTileGo] at h
    by_cases hle : roll ≤ acc + w j
    · rw [if_pos hle] at h
      by_cases hz : w j = 0
      · rw [if_pos hz] at h; simp at h
      · rw [if_neg hz] at h
        simp at h
        subst h
        exact ⟨List.mem_cons_self j rest, hz⟩
    · rw [if_neg hle] at h
      obtain ⟨h1, h2⟩ := ih _ _ h
      exact ⟨List.mem_cons_of_mem j h1, h2⟩

theorem selectTile_mem (n : ℕ) (w : ℕ → ℚ) (roll : ℚ) (i : ℕ)
    (h : selectTile n w roll = .ok (some i)) : i < n ∧ w i ≠ 0 := by
  obtain ⟨h1, h2⟩ := selectTileGo_ok_some w roll (List.range n) 0 i h
  exact ⟨List.mem_range.mp h1, h2⟩

theorem selectTile_ne_zero (n : ℕ) (w : ℕ → ℚ) (roll : ℚ) (i : ℕ)
    (hroll : 0 ≤ roll) (h0 : w 0 ≤ 0)
    (h : selectTile n w roll = .ok (some i)) : 1 ≤ i := by
  cases n with
  | zero => simp [selectTile, selectTileGo] at h
  | succ m =>
    unfold selectTile at h
    rw [List.range_succ_eq_map] at h
    simp only [selectTileGo] at h
    by_cases hle : roll ≤ 0 + w 0
    · rw [if_pos hle] at h
      have hw0 : w 0 = 0 := by
        rw [zero_add] at hle
        linarith
      rw [if_pos hw0] at h
      simp at h
    · rw [if_neg hle] at h
      obtain ⟨h1, h2⟩ := selectTileGo_ok_some w roll _ _ i h
      simp only [List.mem_map] at h1
      obtain ⟨j, hj, rfl⟩ := h1
      omega

/-! ### Geometry of the bombed area and the full-grid rectangle -/

theorem bombArea_topLeft (cfg : Cfg) (pos : Coord) (done : ℕ) :
    (bombArea cfg pos done).topLeft = (0, 0) := by
  unfold bombArea Rect.intersect Rect.around Rect.fromSize Rect.fromCorners
  simp

theorem bombArea_bottomRight (cfg : Cfg) (pos : Coord) (done : ℕ) :
    (bombArea cfg pos done).bottomRight =
      (min (satAddU32 pos.1 (bombRadiusAt cfg done)) (cfg.size.1 - 1),
       min (satAddU32 pos.2 (bombRadiusAt cfg done)) (cfg.size.2 - 1)) := rfl

theorem mem_bombArea (cfg : Cfg) (pos : Coord) (done : ℕ) (p : Coord) :
    p ∈ (bombArea cfg pos done).iterIndices ↔
      (p.1 ≤ min (satAddU32 pos.1 (bombRadiusAt cfg done)) (cfg.size.1 - 1) ∧
       p.2 ≤ min (satAddU32 pos.2 (bombRadiusAt cfg done)) (cfg.size.2 - 1)) := by
  rw [Rect.mem_iterIndices _ (by rw [bombArea_topLeft]; exact Nat.zero_le _)]
  rw [bombArea_topLeft, bombArea_bottomRight]
  simp

theorem mem_bombArea_self (cfg : Cfg) (pos : Coord) (done : ℕ)
    (hp1 : pos.1 < cfg.size.1) (hp2 : pos.2 < cfg.size.2)
    (hb1 : cfg.size.1 ≤ u32Mod) (hb2 : cfg.size.2 ≤ u32Mod) :
    pos ∈ (bombArea cfg pos done).iterIndices := by
  rw [mem_bombArea]
  unfold satAddU32 u32Mod
  unfold u32Mod at hb1 hb2
  constructor <;> omega

theorem bombArea_sub_grid (cfg : Cfg) (pos : Coord) (done : ℕ) (p : Coord)
    (hs1 : 1 ≤ cfg.size.1) (hs2 : 1 ≤ cfg.size.2)
    (h : p ∈ (bombArea cfg pos done).iterIndices) : inGrid cfg.size p := by
  rw [mem_bombArea] at h
  unfold inGrid
  omega

theorem bombRadiusAt_mono (cfg : Cfg) (done done' : ℕ) (hdd : done ≤ done')
    (hrad : cfg.bombRadius * 2 ^ done' < u32Mod) :
    bombRadiusAt cfg done ≤ bombRadiusAt cfg done' := by
  unfold bombRadiusAt
  have hle : cfg.bombRadius * 2 ^ done ≤ cfg.bombRadius * 2 ^ done' :=
    Nat.mul_le_mul_left _ (Nat.pow_le_pow_right (by omega) hdd)
  rw [Nat.mod_eq_of_lt (by omega), Nat.mod_eq_of_lt hrad]
  exact hle

theorem bombArea_mono (cfg : Cfg) (pos : Coord) (done done' : ℕ) (hdd : done ≤ done')
    (hrad : cfg.bombRadius * 2 ^ done' < u32Mod) (p : Coord)
    (h : p ∈ (bombArea cfg pos done).iterIndices) :
    p ∈ (bombArea cfg pos done').iterIndices := by
  rw [mem_bombArea] at h ⊢
  have hr := bombRadiusAt_mono cfg done done' hdd hrad
  unfold satAddU32 at h ⊢
  omega

theorem mem_fromSize (size : Coord) (p : Coord) :
    p ∈ (Rect.fromSize size).iterIndices ↔ (p.1 ≤ size.1 - 1 ∧ p.2 ≤ size.2 - 1) := by
  rw [Rect.mem_iterIndices _ (by exact Nat.zero_le _)]
  unfold Rect.fromSize
  simp

theorem mem_fromSize_inGrid (size : Coord) (hs1 : 1 ≤ size.1) (hs2 : 1 ≤ size.2) (p : Coord) :
    p ∈ (Rect.fromSize size).iterIndices ↔ inGrid size p := by
  rw [mem_fromSize]
  unfold inGrid
  omega

/-! ### The run invariant -/

/-- The invariant maintained at the loop boundaries of `regenerate`:
* every committed cell's stored probability vector is the one-hot vector of its
  committed tile;
* the priority structure only tracks in-grid cells;
* every in-grid uncommitted cell is tracked;
* every committed tile index is in `[1, numTiles-1]`;
* entry 0 of every stored probability vector is never positive (it is the
  normalized slot-0 weight of the callback, the sentinel, or the one-hot entry
  of a nonzero tile). -/
structure WfcInv (cfg : Cfg) (s : WfcState) : Prop where
  onehotValid : ∀ p, s.valid p = true → s.probs p = onehot (s.tiles p)
  keysInGrid : ∀ x ∈ s.entropy, inGrid cfg.size x.1
  invalidTracked : ∀ p, inGrid cfg.size p → s.valid p = false → hasKey s.entropy p
  tileRange : ∀ p, s.valid p = true → 1 ≤ s.tiles p ∧ s.tiles p < cfg.numTiles
  slot0 : ∀ p, s.probs p 0 ≤ 0

theorem backtrackGo_inv (cfg : Cfg) (f : Callback) (ent : EntFn)
    (hcb : ∀ g p, f g p 0 = 0)
    (hs1 : 1 ≤ cfg.size.1) (hs2 : 1 ≤ cfg.size.2)
    (hb1 : cfg.size.1 ≤ u32Mod) (hb2 : cfg.size.2 ≤ u32Mod)
    (hrad : cfg.bombRadius * 2 ^ cfg.maxBombings < u32Mod)
    (pos : Coord) (hpos : inGrid cfg.size pos) :
    ∀ (n done : ℕ) (s : WfcState) (d2 : ℕ) (s2 : WfcState),
      cfg.maxBombings + 1 - done ≤ n →
      done ≤ cfg.maxBombings →
      (∀ p, s.valid p = true → p ≠ pos → s.probs p = onehot (s.tiles p)) →
      (∀ x ∈ s.entropy, inGrid cfg.size x.1) →
      (∀ p, inGrid cfg.size p → s.valid p = false →
        hasKey s.entropy p ∨ p ∈ (bombArea cfg pos done).iterIndices) →
      (∀ p, s.valid p = true → 1 ≤ s.tiles p ∧ s.tiles p < cfg.numTiles) →
      (∀ p, s.probs p 0 ≤ 0) →
      backtrackGo cfg f ent pos done s = .ok (d2, s2) →
      WfcInv cfg s2 := by
  intro n
  induction n with
  | zero => intro done s d2 s2 hn hdone _ _ _ _ _ _; omega
  | succ n ihn =>
    intro done s d2 s2 hn hdone h1h h2k h4r h3t h50 hrun
    by_cases hd : cfg.maxBombings < done + 1
    · rw [backtrackGo_exhaust cfg f ent pos done s hd] at hrun; simp at hrun
    · cases hcp : computeProbabilities cfg f s (bombArea cfg pos done) with
      | error e =>
        rw [backtrackGo_cp_err cfg f ent pos done s e hd hcp] at hrun; simp at hrun
      | ok pair =>
        obtain ⟨s', b⟩ := pair
        have harea_pos : pos ∈ (bombArea cfg pos done).iterIndices :=
          mem_bombArea_self cfg pos done hpos.1 hpos.2 hb1 hb2
        have hvalid' : ∀ p, s'.valid p =
            (if p ∈ (bombArea cfg pos done).iterIndices then false else s.valid p) :=
          computeProbabilities_valid cfg f s _ s' b hcp
        have htiles' : ∀ p, s'.tiles p =
            (if p ∈ (bombArea cfg pos done).iterIndices then 0 else s.tiles p) :=
          computeProbabilities_tiles cfg f s _ s' b hcp
        have hent' : s'.entropy = s.entropy := computeProbabilities_entropy cfg f s _ s' b hcp
        have hpout : ∀ p, p ∉ (bombArea cfg pos done).iterIndices → s'.probs p = s.probs p :=
          fun p hp => computeProbabilities_probs_outside cfg f s _ s' b hcp p hp
        have h50' : ∀ p, s'.probs p 0 ≤ 0 :=
          computeProbabilities_slot0 cfg f hcb s _ s' b hcp h50
        have honehot' : ∀ p, s'.valid p = true → s'.probs p = onehot (s'.tiles p) := by
          intro p hp
          rw [hvalid' p] at hp
          by_cases hmem : p ∈ (bombArea cfg pos done).iterIndices
          · rw [if_pos hmem] at hp; simp at hp
          · rw [if_neg hmem] at hp
            have hne : p ≠ pos := by
              intro hc; subst hc; exact hmem harea_pos
            rw [hpout p hmem, htiles' p, if_neg hmem]
            exact h1h p hp hne
        have htr' : ∀ p, s'.valid p = true → 1 ≤ s'.tiles p ∧ s'.tiles p < cfg.numTiles := by
          intro p hp
          rw [hvalid' p] at hp
          by_cases hmem : p ∈ (bombArea cfg pos done).iterIndices
          · rw [if_pos hmem] at hp; simp at hp
          · rw [if_neg hmem] at hp
            rw [htiles' p, if_neg hmem]
            exact h3t p hp
        cases b with
        | false =>
          rw [backtrackGo_retry cfg f ent pos done s s' hd hcp] at hrun
          refine ihn (done + 1) s' d2 s2 (by omega) (by omega) (fun p hp _ => honehot' p hp) ?_ ?_ htr' h50' hrun
          · rw [hent']; exact h2k
          · intro p hpg hpv
            rw [hvalid' p] at hpv
            by_cases hmem : p ∈ (bombArea cfg pos done).iterIndices
            · right
              exact bombArea_mono cfg pos done (done + 1) (by omega)
                (by
                  have : cfg.bombRadius * 2 ^ (done + 1) ≤ cfg.bombRadius * 2 ^ cfg.maxBombings :=
                    Nat.mul_le_mul_left _ (Nat.pow_le_pow_right (by omega) (by omega))
                  omega) p hmem
            · rw [if_neg hmem] at hpv
              rcases h4r p hpg hpv with hk | hmem2
              · left; rw [hent']; exact hk
              · exact absurd hmem2 hmem
        | true =>
          rw [backtrackGo_success cfg f ent pos done s s' hd hcp] at hrun
          simp at hrun
          obtain ⟨hd2, hs2⟩ := hrun
          subst hs2
          have hcev := computeEntropies_valid ent (bombArea cfg pos done) s'
          have hcet := computeEntropies_tiles ent (bombArea cfg pos done) s'
          have hcep := computeEntropies_probs ent (bombArea cfg pos done) s'
          refine ⟨?_, ?_, ?_, ?_, ?_⟩
          · intro p hp
            rw [hcev] at hp
            rw [hcep, hcet]
            exact honehot' p hp
          · intro x hx
            rcases computeEntropies_keys ent (bombArea cfg pos done) s' x hx with ⟨y, hy, hk⟩ | hm
            · rw [hent'] at hy
              rw [← hk]
              exact h2k y hy
            · exact bombArea_sub_grid cfg pos done x.1 hs1 hs2 hm
          · intro p hpg hpv
            rw [hcev] at hpv
            rw [hvalid' p] at hpv
            by_cases hmem : p ∈ (bombArea cfg pos done).iterIndices
            · exact computeEntropies_hasKey_of_mem ent _ s' p hmem
            · rw [if_neg hmem] at hpv
              rcases h4r p hpg hpv with hk | hmem2
              · refine computeEntropies_hasKey_mono ent _ s' p ?_
                rw [hent']
                exact hk
              · exact absurd hmem2 hmem
          · intro p hp
            rw [hcev] at hp
            rw [hcet]
            exact htr' p hp
          · intro p
            rw [hcep]
            exact h50' p

theorem regenerateGo_inv (cfg : Cfg) (f : Callback) (ent : EntFn) (stream : ℕ → ℚ)
    (hcb : ∀ g p, f g p 0 = 0) (hroll : ∀ k, 0 ≤ stream k)
    (hs1 : 1 ≤ cfg.size.1) (hs2 : 1 ≤ cfg.size.2)
    (hb1 : cfg.size.1 ≤ u32Mod) (hb2 : cfg.size.2 ≤ u32Mod)
    (hrad : cfg.bombRadius * 2 ^ cfg.maxBombings < u32Mod) :
    ∀ (a b k done : ℕ) (s : WfcState) (d2 : ℕ) (s2 : WfcState),
      cfg.maxBombings + 1 - done ≤ a → s.entropy.length ≤ b →
      done ≤ cfg.maxBombings → WfcInv cfg s →
      regenerateGo cfg f ent stream k done s = .ok (d2, s2) →
      WfcInv cfg s2 ∧ s2.entropy = [] := by
  intro a
  induction a using Nat.strong_induction_on with
  | _ a iha =>
    intro b
    induction b using Nat.strong_induction_on with
    | _ b ihb =>
      intro k done s d2 s2 ha hb hdone hInv hrun
      cases hpop : popMax s.entropy with
      | none =>
        rw [regenerateGo_pop_none cfg f ent stream k done s hpop] at hrun
        simp at hrun
        obtain ⟨hd2, hs2'⟩ := hrun
        subst hs2'
        exact ⟨hInv, (popMax_none _).mp hpop⟩
      | some pr =>
        obtain ⟨⟨target, e⟩, rest⟩ := pr
        have htmem := popMax_mem s.entropy (target, e) rest hpop
        have htarget : inGrid cfg.size target := hInv.keysInGrid (target, e) htmem
        cases hsel : selectTile cfg.numTiles (s.probs target) (stream k) with
        | error pe =>
          rw [regenerateGo_sel_err cfg f ent stream k done s target e rest pe hpop hsel] at hrun
          simp at hrun
        | ok oi =>
          cases oi with
          | none =>
            rw [regenerateGo_sel_none cfg f ent stream k done s target e rest hpop hsel] at hrun
            simp at hrun
          | some t =>
            have ht1 : 1 ≤ t :=
              selectTile_ne_zero cfg.numTiles (s.probs target) (stream k) t (hroll k)
                (hInv.slot0 target) hsel
            have ht2 : t < cfg.numTiles :=
              (selectTile_mem cfg.numTiles (s.probs target) (stream k) t hsel).1
            cases hst : setTile cfg f ent { s with entropy := rest } target t with
            | error pe =>
              rw [regenerateGo_set_err cfg f ent stream k done s target e rest t pe
                hpop hsel hst] at hrun
              simp at hrun
            | ok pr2 =>
              obtain ⟨s1, b1⟩ := pr2
              have hvalid1 : s1.valid = upd2 s.valid target true :=
                setTile_valid cfg f ent { s with entropy := rest } target t s1 b1 hst
              have htiles1 : s1.tiles = upd2 s.tiles target t :=
                setTile_tiles cfg f ent { s with entropy := rest } target t s1 b1 hst
              have hprobsOther : ∀ q, s.valid q = true → q ≠ target → s1.probs q = s.probs q :=
                fun q hq hqp =>
                  setTile_probs_valid_other cfg f ent { s with entropy := rest } target t s1 b1
                    hst q hq hqp
              have hslot1 : ∀ p, s1.probs p 0 ≤ 0 :=
                setTile_slot0 cfg f hcb ent { s with entropy := rest } target t ht1 s1 b1 hst
                  hInv.slot0
              have hkeys1 : ∀ x ∈ s1.entropy, ∃ y ∈ rest, y.1 = x.1 :=
                setTile_keys cfg f ent { s with entropy := rest } target t s1 b1 hst
              have hhk1 : ∀ p, hasKey s1.entropy p ↔ hasKey rest p :=
                fun p => setTile_hasKey cfg f ent { s with entropy := rest } target t s1 b1 hst p
              have hkeysGrid1 : ∀ x ∈ s1.entropy, inGrid cfg.size x.1 := by
                intro x hx
                obtain ⟨y, hy, hk⟩ := hkeys1 x hx
                rw [← hk]
                exact hInv.keysInGrid y (popMax_rest_mem s.entropy (target, e) rest hpop y hy)
              have hinvTrack1 : ∀ p, inGrid cfg.size p → s1.valid p = false → hasKey rest p := by
                intro p hpg hpv
                rw [hvalid1] at hpv
                by_cases hpt : p = target
                · subst hpt; rw [upd2_same] at hpv; simp at hpv
                · rw [upd2_other _ _ _ _ hpt] at hpv
                  obtain ⟨e', he'⟩ := hInv.invalidTracked p hpg hpv
                  rcases popMax_cases s.entropy (target, e) rest hpop (p, e') he' with heq | hmem
                  · cases heq; exact absurd rfl hpt
                  · exact ⟨e', hmem⟩
              have htr1 : ∀ p, s1.valid p = true → 1 ≤ s1.tiles p ∧ s1.tiles p < cfg.numTiles := by
                intro p hp
                rw [hvalid1] at hp
                by_cases hpt : p = target
                · subst hpt; rw [htiles1, upd2_same]; exact ⟨ht1, ht2⟩
                · rw [upd2_other _ _ _ _ hpt] at hp
                  rw [htiles1, upd2_other _ _ _ _ hpt]
                  exact hInv.tileRange p hp
              cases b1 with
              | true =>
                have hInv1 : WfcInv cfg s1 := by
                  refine ⟨?_, hkeysGrid1, ?_, htr1, hslot1⟩
                  · intro p hp
                    rw [hvalid1] at hp
                    by_cases hpt : p = target
                    · rw [hpt]
                      have hone : s1.probs target = onehot t :=
                        setTile_true_probs_pos cfg f ent { s with entropy := rest } target t s1
                          hst
                      rw [hone, htiles1, upd2_same]
                    · rw [upd2_other _ _ _ _ hpt] at hp
                      rw [hprobsOther p hp hpt, htiles1, upd2_other _ _ _ _ hpt]
                      exact hInv.onehotValid p hp
                  · intro p hpg hpv
                    exact (hhk1 p).mpr (hinvTrack1 p hpg hpv)
                rw [regenerateGo_set_ok cfg f ent stream k done s target e rest t s1
                  hpop hsel hst] at hrun
                have hlen1 : s1.entropy.length = rest.length :=
                  setTile_ok_entropy_length cfg f ent { s with entropy := rest } target t s1
                    true hst
                have hlen2 := popMax_length s.entropy (target, e) rest hpop
                exact ihb (b - 1) (by omega) (k + 1) done s1 d2 s2 ha (by omega) hdone hInv1 hrun
              | false =>
                cases hbt : backtrackGo cfg f ent target done s1 with
                | error pe =>
                  rw [regenerateGo_bt_err cfg f ent stream k done s target e rest t s1 pe
                    hpop hsel hst hbt] at hrun
                  simp at hrun
                | ok pr3 =>
                  obtain ⟨d3, s3⟩ := pr3
                  rw [regenerateGo_bt_ok cfg f ent stream k done s target e rest t s1 d3 s3
                    hpop hsel hst hbt] at hrun
                  have hbb := backtrackGo_ok_bounds cfg f ent target done s1 d3 s3 hbt
                  have hInv3 : WfcInv cfg s3 := by
                    refine backtrackGo_inv cfg f ent hcb hs1 hs2 hb1 hb2 hrad target htarget
                      (cfg.maxBombings + 1 - done) done s1 d3 s3 le_rfl hdone ?_ hkeysGrid1
                      ?_ htr1 hslot1 hbt
                    · intro p hp hpt
                      rw [hvalid1] at hp
                      rw [upd2_other _ _ _ _ hpt] at hp
                      rw [hprobsOther p hp hpt, htiles1, upd2_other _ _ _ _ hpt]
                      exact hInv.onehotValid p hp
                    · intro p hpg hpv
                      exact Or.inl ((hhk1 p).mpr (hinvTrack1 p hpg hpv))
                  exact iha (cfg.maxBombings + 1 - d3) (by omega) s3.entropy.length (k + 1) d3
                    s3 d2 s2 le_rfl le_rfl (by omega) hInv3 hrun

theorem generate_inv (cfg : Cfg) (f : Callback) (ent : EntFn) (stream : ℕ → ℚ)
    (hcb : ∀ g p, f g p 0 = 0) (hroll : ∀ k, 0 ≤ stream k)
    (hs1 : 1 ≤ cfg.size.1) (hs2 : 1 ≤ cfg.size.2)
    (hb1 : cfg.size.1 ≤ u32Mod) (hb2 : cfg.size.2 ≤ u32Mod)
    (hrad : cfg.bombRadius * 2 ^ cfg.maxBombings < u32Mod)
    (d2 : ℕ) (s2 : WfcState)
    (h : generate cfg f ent stream = .ok (d2, s2)) :
    WfcInv cfg s2 ∧ s2.entropy = [] := by
  unfold generate regenerate at h
  simp only [] at h
  cases hcp : computeProbabilities cfg f initState (Rect.fromSize cfg.size) with
  | error e => rw [hcp] at h; simp at h
  | ok pr =>
    obtain ⟨s1, b⟩ := pr
    rw [hcp] at h
    have hvalid1 : ∀ p, s1.valid p = false := by
      intro p
      rw [computeProbabilities_valid cfg f initState _ s1 b hcp p]
      by_cases hm : p ∈ (Rect.fromSize cfg.size).iterIndices
      · rw [if_pos hm]
      · rw [if_neg hm]; rfl
    have hent1 : s1.entropy = [] :=
      computeProbabilities_entropy cfg f initState _ s1 b hcp
    have hslot1 : ∀ p, s1.probs p 0 ≤ 0 := by
      refine computeProbabilities_slot0 cfg f hcb initState _ s1 b hcp ?_
      intro p
      show NO_PROBABILITY ≤ 0
      unfold NO_PROBABILITY
      norm_num
    have hready : WfcInv cfg (computeEntropies ent (Rect.fromSize cfg.size) s1) := by
      refine ⟨?_, ?_, ?_, ?_, ?_⟩
      · intro p hp
        rw [computeEntropies_valid] at hp
        rw [hvalid1 p] at hp
        simp at hp
      · intro x hx
        rcases computeEntropies_keys ent (Rect.fromSize cfg.size) s1 x hx with ⟨y, hy, _⟩ | hm
        · rw [hent1] at hy; simp at hy
        · exact (mem_fromSize_inGrid cfg.size hs1 hs2 x.1).mp hm
      · intro p hpg _
        exact computeEntropies_hasKey_of_mem ent _ s1 p
          ((mem_fromSize_inGrid cfg.size hs1 hs2 p).mpr hpg)
      · intro p hp
        rw [computeEntropies_valid] at hp
        rw [hvalid1 p] at hp
        simp at hp
      · intro p
        rw [computeEntropies_probs]
        exact hslot1 p
    exact regenerateGo_inv cfg f ent stream hcb hroll hs1 hs2 hb1 hb2 hrad
      (cfg.maxBombings + 1) ((computeEntropies ent (Rect.fromSize cfg.size) s1).entropy.length)
      0 0 _ d2 s2 (by omega) le_rfl (Nat.zero_le _) hready h

theorem generate_solved (cfg : Cfg) (f : Callback) (ent : EntFn) (stream : ℕ → ℚ)
    (hcb : ∀ g p, f g p 0 = 0) (hroll : ∀ k, 0 ≤ stream k)
    (hs1 : 1 ≤ cfg.size.1) (hs2 : 1 ≤ cfg.size.2)
    (hb1 : cfg.size.1 ≤ u32Mod) (hb2 : cfg.size.2 ≤ u32Mod)
    (hrad : cfg.bombRadius * 2 ^ cfg.maxBombings < u32Mod)
    (d2 : ℕ) (s2 : WfcState)
    (h : generate cfg f ent stream = .ok (d2, s2)) :
    (∀ p, inGrid cfg.size p → s2.valid p = true) ∧
    (∀ p, s2.valid p = true → 1 ≤ s2.tiles p ∧ s2.tiles p < cfg.numTiles) ∧
    (∀ p, s2.valid p = true → s2.probs p = onehot (s2.tiles p)) := by
  obtain ⟨hInv, hemp⟩ :=
    generate_inv cfg f ent stream hcb hroll hs1 hs2 hb1 hb2 hrad d2 s2 h
  refine ⟨?_, hInv.tileRange, hInv.onehotValid⟩
  intro p hpg
  by_cases hv : s2.valid p = true
  · exact hv
  · have hfalse : s2.valid p = false := by
      cases hval : s2.valid p
      · rfl
      · exact absurd hval hv
    obtain ⟨e, he⟩ := hInv.invalidTracked p hpg hfalse
    rw [hemp] at he
    simp at he

/-! ### Claim theorems -/

theorem toI32_of_lt (n : ℕ) (h : n < 2 ^ 31) : toI32 n = n := by
  unfold toI32
  have h0 : (0:ℤ) ≤ (n:ℤ) + 2 ^ 31 := by positivity
  have h1 : (n:ℤ) < 2 ^ 31 := by exact_mod_cast h
  have h2 : (n:ℤ) + 2 ^ 31 < 2 ^ 32 := by omega
  rw [Int.emod_eq_of_lt h0 h2]
  ring

theorem clampI_mem (v lo hi : ℤ) (h : lo ≤ hi) :
    lo ≤ clampI v lo hi ∧ clampI v lo hi ≤ hi := by
  unfold clampI
  omega

theorem Rect.mem_iterIndices_le (r : Rect) (p : Coord) (h : p ∈ r.iterIndices) :
    r.topLeft.1 ≤ p.1 ∧ p.1 ≤ max r.topLeft.1 r.bottomRight.1 ∧
    r.topLeft.2 ≤ p.2 ∧ p.2 ≤ r.bottomRight.2 := by
  unfold Rect.iterIndices at h
  simp only [List.mem_flatMap, List.mem_map, List.mem_range'] at h
  obtain ⟨y, ⟨i, hi, rfl⟩, x, ⟨j, hj, rfl⟩, rfl⟩ := h
  simp only []
  omega

theorem NeighborPositions.iterList_bounds (size position : Coord) (radius : ℕ) (p : Coord)
    (hs1 : 1 ≤ size.1) (hsu1 : size.1 < 2 ^ 31) (hs2 : 1 ≤ size.2) (hsu2 : size.2 < 2 ^ 31)
    (hp : p ∈ NeighborPositions.iterList size position radius) :
    p.1 < size.1 ∧ p.2 < size.2 ∧ p ≠ position := by
  unfold NeighborPositions.iterList at hp
  simp only [] at hp
  rw [List.mem_filter] at hp
  obtain ⟨hbox, hcond⟩ := hp
  rw [decide_eq_true_eq] at hcond
  obtain ⟨hne, -⟩ := hcond
  have hb := Rect.mem_iterIndices_le _ _ hbox
  clear hbox
  simp only [Rect.fromCorners] at hb
  have hsx : (1:ℤ) ≤ (size.1 : ℤ) := by exact_mod_cast hs1
  have hsy : (1:ℤ) ≤ (size.2 : ℤ) := by exact_mod_cast hs2
  have htx : toI32 size.1 = (size.1 : ℤ) := toI32_of_lt size.1 hsu1
  have hty : toI32 size.2 = (size.2 : ℤ) := toI32_of_lt size.2 hsu2
  have hc1 := clampI_mem (toI32 position.1 - toI32 radius) 0 (toI32 size.1 - 1)
    (by rw [htx]; omega)
  have hc2 := clampI_mem (toI32 position.2 - toI32 radius) 0 (toI32 size.2 - 1)
    (by rw [hty]; omega)
  have hc3 := clampI_mem (toI32 position.1 + toI32 radius) 0 (toI32 size.1 - 1)
    (by rw [htx]; omega)
  have hc4 := clampI_mem (toI32 position.2 + toI32 radius) 0 (toI32 size.2 - 1)
    (by rw [hty]; omega)
  rw [htx] at hc1 hc3
  rw [hty] at hc2 hc4
  rw [htx, hty] at hb
  refine ⟨?_, ?_, hne⟩
  · omega
  · omega

theorem Neighborhood.iterPositionsList_bounds (size : Coord) (position : ℤ × ℤ) (p : Coord)
    (hsu1 : size.1 < 2 ^ 31) (hsu2 : size.2 < 2 ^ 31)
    (hp : p ∈ Neighborhood.iterPositionsList size position) :
    p.1 < size.1 ∧ p.2 < size.2 ∧ ((p.1 : ℤ), (p.2 : ℤ)) ≠ position := by
  unfold Neighborhood.iterPositionsList at hp
  rw [List.mem_filterMap] at hp
  obtain ⟨o, ho, heq⟩ := hp
  simp only [] at heq
  have htx : toI32 size.1 = (size.1 : ℤ) := toI32_of_lt size.1 hsu1
  have hty : toI32 size.2 = (size.2 : ℤ) := toI32_of_lt size.2 hsu2
  by_cases hc : 0 ≤ position.1 + o.1 ∧ 0 ≤ position.2 + o.2 ∧
      position.1 + o.1 < toI32 size.1 ∧ position.2 + o.2 < toI32 size.2
  · rw [if_pos hc] at heq
    obtain ⟨hc1, hc2, hc3, hc4⟩ := hc
    rw [htx] at hc3
    rw [hty] at hc4
    have hp1 : ((position.1 + o.1).toNat, (position.2 + o.2).toNat) = p :=
      Option.some.inj heq
    subst hp1
    have hoz : o.1 ≠ 0 ∨ o.2 ≠ 0 := by
      simp only [neighborhoodOffsets, List.mem_cons, List.not_mem_nil, or_false] at ho
      rcases ho with rfl | rfl | rfl | rfl <;> decide
    refine ⟨by omega, by omega, ?_⟩
    intro hcon
    rw [Prod.ext_iff] at hcon
    obtain ⟨hcon1, hcon2⟩ := hcon
    simp only [] at hcon1 hcon2
    rw [Int.toNat_of_nonneg hc1] at hcon1
    rw [Int.toNat_of_nonneg hc2] at hcon2
    omega
  · rw [if_neg hc] at heq
    simp at heq

/-- C9: every position yielded by neighborhood iteration lies inside
`[0, width) × [0, height)` and differs from the center, for every center
(centers outside the grid included; they are `u32` respectively `i32` values in
the two iterators of `neighborhood.rs`) and every radius. The `< 2^31`
hypotheses say that the grid dimensions are representable after the source's
`u32 as i32` casts. -/
theorem claim_C9_neighborhood_in_bounds :
    (∀ (size position : Coord) (radius : ℕ) (p : Coord),
      1 ≤ size.1 → size.1 < 2 ^ 31 → 1 ≤ size.2 → size.2 < 2 ^ 31 →
      p ∈ NeighborPositions.iterList size position radius →
      p.1 < size.1 ∧ p.2 < size.2 ∧ p ≠ position) ∧
    (∀ (size : Coord) (position : ℤ × ℤ) (p : Coord),
      size.1 < 2 ^ 31 → size.2 < 2 ^ 31 →
      p ∈ Neighborhood.iterPositionsList size position →
      p.1 < size.1 ∧ p.2 < size.2 ∧ ((p.1 : ℤ), (p.2 : ℤ)) ≠ position) := by
  constructor
  · intro size position radius p hs1 hsu1 hs2 hsu2 hp
    exact NeighborPositions.iterList_bounds size position radius p hs1 hsu1 hs2 hsu2 hp
  · intro size position p hsu1 hsu2 hp
    exact Neighborhood.iterPositionsList_bounds size position p hsu1 hsu2 hp

/-- Witness for C9 at a concrete grid, center and radius. -/
theorem claim_C9_witness :
    ((1, 0) : Coord).1 < 3 ∧ ((1, 0) : Coord).2 < 3 ∧ ((1, 0) : Coord) ≠ (0, 0) := by
  refine claim_C9_neighborhood_in_bounds.1 (3, 3) (0, 0) 1 (1, 0) ?_ ?_ ?_ ?_ ?_
  · decide
  · decide
  · decide
  · decide
  · decide

/-- C8: the entry popped for commitment from the solver's priority structure
(the main loop of `regenerate` pops via `popMax`, the embedding of the
max-priority `PriorityQueue::pop`) is a tracked entry whose priority — the
stored entropy value of that cell — is maximal among all entries of the
structure. -/
theorem claim_C8_pop_is_max_entropy :
    ∀ (s : WfcState) (target : Coord) (e : ℚ) (rest : List QEntry),
      popMax s.entropy = some ((target, e), rest) →
      (target, e) ∈ s.entropy ∧ ∀ x ∈ s.entropy, x.2 ≤ e := by
  intro s target e rest h
  exact ⟨popMax_mem s.entropy (target, e) rest h,
         popMax_max s.entropy (target, e) rest h⟩

/-- Witness for C8 on a concrete priority structure. -/
theorem claim_C8_witness :
    (((1, 0), (5 : ℚ)) ∈ [(((0, 0) : Coord), (1 : ℚ)), ((1, 0), 5), ((2, 0), 2)] ∧
     ∀ x ∈ [(((0, 0) : Coord), (1 : ℚ)), ((1, 0), 5), ((2, 0), 2)], x.2 ≤ (5 : ℚ)) := by
  exact claim_C8_pop_is_max_entropy
    { tiles := fun _ => 0, valid := fun _ => false, probs := fun _ _ => 0,
      entropy := [(((0, 0) : Coord), (1 : ℚ)), ((1, 0), 5), ((2, 0), 2)] }
    (1, 0) 5 [((0, 0), 1), ((2, 0), 2)] (by decide)

/-- C7: probability evaluation at a position fails exactly when the callback's
weight vector has the sentinel `NO_PROBABILITY` in slot 0 or a weight sum `≤ 0`
(the `none` result is the `false` return of `update_probability`, the sole
contradiction signal the engine reacts to); on success the tensor entry at the
position becomes the weight vector divided by its sum, and no other entry
changes. -/
theorem claim_C7_update_probability :
    ∀ (n : ℕ) (f : Callback) (tiles : Coord → ℕ) (pos : Coord)
      (probabilities : Coord → ℕ → ℚ),
      (updateProbability n f tiles pos probabilities = none ↔
        (f tiles pos 0 = NO_PROBABILITY ∨ psum n (f tiles pos) ≤ 0)) ∧
      (∀ ps', updateProbability n f tiles pos probabilities = some ps' →
        (∀ i, ps' pos i = f tiles pos i / psum n (f tiles pos)) ∧
        (∀ q, q ≠ pos → ps' q = probabilities q)) := by
  intro n f tiles pos probabilities
  constructor
  · exact updateProbability_none_iff n f tiles pos probabilities
  · intro ps' h
    have he := updateProbability_some_eq n f tiles pos probabilities ps' h
    constructor
    · intro i
      rw [he, upd2_same]
    · intro q hq
      rw [he, upd2_other _ _ _ _ hq]

/-- The concrete callback of the C7 witness: weights `[0, 2]`. -/
def fW7 : Callback := fun _ _ i => if i = 1 then 2 else 0

/-- The stored tensor produced by the C7 witness evaluation. -/
def psW7 : Coord → ℕ → ℚ :=
  match updateProbability 2 fW7 (fun _ => 0) (0, 0) (fun _ _ => NO_PROBABILITY) with
  | some ps' => ps'
  | none => fun _ _ => NO_PROBABILITY

/-- Witness for C7 at a concrete callback and position. -/
theorem claim_C7_witness :
    psW7 (0, 0) 1 = fW7 (fun _ => 0) (0, 0) 1 / psum 2 (fW7 (fun _ => 0) (0, 0)) ∧
    psW7 (1, 1) = (fun _ _ => NO_PROBABILITY : Coord → ℕ → ℚ) (1, 1) := by
  have h := (claim_C7_update_probability 2 fW7 (fun _ => 0) (0, 0)
    (fun _ _ => NO_PROBABILITY)).2 psW7 (by with_unfolding_all rfl)
  exact ⟨h.1 1, h.2 (1, 1) (by decide)⟩

/-- C6: the output of `generate` is a function of the configuration, the
callback, the entropy function and the seed-derived roll stream alone — two
runs with (pointwise) identical callbacks and roll streams and the same
configuration produce identical results, bit-identical grids included. -/
theorem claim_C6_determinism :
    ∀ (cfg : Cfg) (f1 f2 : Callback) (ent : EntFn) (r1 r2 : ℕ → ℚ),
      (∀ g p i, f1 g p i = f2 g p i) → (∀ j, r1 j = r2 j) →
      generate cfg f1 ent r1 = generate cfg f2 ent r2 := by
  intro cfg f1 f2 ent r1 r2 hf hr
  have hf' : f1 = f2 := funext fun g => funext fun p => funext fun i => hf g p i
  have hr' : r1 = r2 := funext hr
  rw [hf', hr']

/-- The configuration of the C6 witness. -/
def cfgW6 : Cfg := ⟨(1, 1), 3, 1, 10, 10⟩

/-- Witness for C6: two syntactically different but pointwise equal callbacks
and roll streams yield the same run. -/
theorem claim_C6_witness :
    generate cfgW6 (fun _ _ _ => 1) (fun _ => 0) (fun _ => 0) =
      generate cfgW6 (fun _ _ _ => 2 - 1) (fun _ => 0) (fun j => 0 + 0 * j) := by
  refine claim_C6_determinism cfgW6 _ _ _ _ _ ?_ ?_
  · intro g p i; norm_num
  · intro j; norm_num

/-- The rectangle that the spec's words describe for backtracking: the square
of the given radius around the center, clipped to the grid bounds (stated for
comparison with the `bombArea` the code computes). -/
def clippedSquare (center : Coord) (radius : ℕ) (size : Coord) : Rect :=
  Rect.fromCorners
    (center.1 - radius, center.2 - radius)
    (min (center.1 + radius) (size.1 - 1), min (center.2 + radius) (size.2 - 1))

/-- The configuration of the C3 counterexample. -/
def cfgC3 : Cfg := ⟨(10, 10), 2, 1, 1, 10⟩

/-- C3 counterexample: with base radius 1, no bombings done yet, and a
contradiction at `(5,5)` of a `10×10` grid, the area the code resets contains
`(0,0)`, a cell far outside the radius-1 square around `(5,5)` clipped to the
grid — because `Rect::intersect` takes the element-wise *min* of the top-left
corners, the bomb area always extends to the origin. -/
theorem claim_C3_counterexample :
    (0, 0) ∈ (bombArea cfgC3 (5, 5) 0).iterIndices ∧
    (0, 0) ∉ (clippedSquare (5, 5) (bombRadiusAt cfgC3 0) cfgC3.size).iterIndices := by
  decide

/-- C3 (amended): the area reset by the bombing attempt number `done` around
`pos` is the rectangle whose top-left corner is the grid origin `(0,0)` and
whose bottom-right corner is the element-wise min of `pos + radius`
(`u32`-saturating) and `size - 1`, where `radius` is
`bomb_radius * 2^done` truncated to `u32`. It equals the clipped square
around `pos` that the claim describes only when that square's top-left corner
is already the origin. -/
theorem claim_C3_amended :
    ∀ (cfg : Cfg) (pos : Coord) (done : ℕ),
      (bombArea cfg pos done).topLeft = (0, 0) ∧
      (bombArea cfg pos done).bottomRight =
        (min (satAddU32 pos.1 (bombRadiusAt cfg done)) (cfg.size.1 - 1),
         min (satAddU32 pos.2 (bombRadiusAt cfg done)) (cfg.size.2 - 1)) := by
  intro cfg pos done
  exact ⟨bombArea_topLeft cfg pos done, bombArea_bottomRight cfg pos done⟩

/-- The entropy function used by the concrete runs (its value is irrelevant to
every verified property). -/
def entZero : EntFn := fun _ => 0

/-- The roll stream used by the concrete runs: every roll is `1/4`. -/
def strQuarter : ℕ → ℚ := fun _ => 1 / 4

/-- The configuration of the C1 run: a `1×1` grid, 3 tile kinds. -/
def cfgC1 : Cfg := ⟨(1, 1), 3, 1, 10, 10⟩

/-- The C1 callback: sentinel in slot 0 unconditionally (every evaluation is a
contradiction). -/
def fC1 : Callback := fun _ _ i => if i = 0 then NO_PROBABILITY else 1

/-- Recognizes the `false` ("init pass failed") result of
`compute_probabilities`. -/
def initFailed (r : Except Panic (WfcState × Bool)) : Bool :=
  match r with
  | .ok (_, false) => true
  | _ => false

/-- The state with which the C1 run enters the main loop. -/
def sReadyC1 : WfcState :=
  match computeProbabilities cfgC1 fC1 initState (Rect.fromSize cfgC1.size) with
  | .ok (s1, _) => computeEntropies entZero (Rect.fromSize cfgC1.size) s1
  | .error _ => initState

/-- C1: with a callback that signals a contradiction unconditionally on the
empty grid, the initial full-grid probability pass *fails* (returns `false`) —
yet `regenerate` discards that result, proceeds into the main loop, pops a
cell, fails to select any tile from its sentinel probability vector and dies
with the anonymous tile-selection `panic!()` (`noTileSelected`), not with a
distinguished "init contradiction" error, and not before entering the loop.
No cell is committed (`set_tile` is never reached). -/
theorem claim_C1_init_contradiction_run :
    initFailed (computeProbabilities cfgC1 fC1 initState (Rect.fromSize cfgC1.size)) = true ∧
    generate cfgC1 fC1 entZero strQuarter = .error .noTileSelected := by
  constructor
  · rfl
  · have h1 : generate cfgC1 fC1 entZero strQuarter =
        regenerateGo cfgC1 fC1 entZero strQuarter 0 0 sReadyC1 := rfl
    rw [h1]
    exact regenerateGo_sel_none cfgC1 fC1 entZero strQuarter 0 0 sReadyC1 (0, 0) 0 []
      (by with_unfolding_all rfl) (by with_unfolding_all rfl)

/-- The configuration of the C5 scenario: a `2×1` grid with `max_bombings = 0`. -/
def cfgC5 : Cfg := ⟨(2, 1), 3, 1, 10, 0⟩

/-- The C5 callback: consistent on the empty grid, contradiction as soon as any
cell of the `2×1` grid holds a committed (nonzero) tile. -/
def fC5 : Callback := fun g _ i =>
  if g (0, 0) ≠ 0 ∨ g (1, 0) ≠ 0 then (if i = 0 then NO_PROBABILITY else 1)
  else (if i = 0 then 0 else 1)

/-- The state with which the C5 run enters the main loop. -/
def sReadyC5 : WfcState :=
  match computeProbabilities cfgC5 fC5 initState (Rect.fromSize cfgC5.size) with
  | .ok (s1, _) => computeEntropies entZero (Rect.fromSize cfgC5.size) s1
  | .error _ => initState

/-- The state of the C5 run after the first (failing) commit. -/
def sSetC5 : WfcState :=
  match setTile cfgC5 fC5 entZero { sReadyC5 with entropy := [((1, 0), 0)] } (0, 0) 1 with
  | .ok (s, _) => s
  | .error _ => initState

/-- C5: backtracking is bounded. Whenever the backtracking loop returns
normally, `bombings_done` has strictly increased and is at most the configured
maximum; whenever it is entered with `bombings_done` already at the maximum it
fails immediately with the exhaustion panic (each attempt increments the
counter and checks it before doing anything else); and in the concrete
scenario — `max_bombings = 0` with a callback that always contradicts after
the first commit — the whole solve terminates with the `backtrackExhausted`
error instead of looping. -/
theorem claim_C5_backtracking_exhaustion :
    (∀ (cfg : Cfg) (f : Callback) (ent : EntFn) (pos : Coord) (done : ℕ) (s : WfcState)
        (d2 : ℕ) (s2 : WfcState),
      backtrackGo cfg f ent pos done s = .ok (d2, s2) →
      done < d2 ∧ d2 ≤ cfg.maxBombings) ∧
    (∀ (cfg : Cfg) (f : Callback) (ent : EntFn) (pos : Coord) (done : ℕ) (s : WfcState),
      cfg.maxBombings ≤ done →
      backtrackGo cfg f ent pos done s = .error .backtrackExhausted) ∧
    generate cfgC5 fC5 entZero strQuarter = .error .backtrackExhausted := by
  refine ⟨fun cfg f ent pos => backtrackGo_ok_bounds cfg f ent pos, ?_, ?_⟩
  · intro cfg f ent pos done s hle
    exact backtrackGo_exhaust cfg f ent pos done s (by omega)
  · have h1 : generate cfgC5 fC5 entZero strQuarter =
        regenerateGo cfgC5 fC5 entZero strQuarter 0 0 sReadyC5 := by with_unfolding_all rfl
    rw [h1]
    refine regenerateGo_bt_err cfgC5 fC5 entZero strQuarter 0 0 sReadyC5 (0, 0) 0
      [((1, 0), 0)] 1 sSetC5 .backtrackExhausted (by with_unfolding_all rfl)
      (by with_unfolding_all rfl) (by with_unfolding_all rfl) ?_
    exact backtrackGo_exhaust cfgC5 fC5 entZero (0, 0) 0 sSetC5 (by decide)

/-- The configuration of the C5 witness (a successful backtrack). -/
def cfgW5 : Cfg := ⟨(1, 1), 3, 1, 1, 1⟩

/-- The callback of the C5 witness: always-consistent weights `[0, 1, 1]`. -/
def fW5 : Callback := fun _ _ i => if i = 0 then 0 else 1

/-- The state after the re-initialization of the C5 witness backtrack. -/
def sCpW5 : WfcState :=
  match computeProbabilities cfgW5 fW5 initState (bombArea cfgW5 (0, 0) 0) with
  | .ok (s, _) => s
  | .error _ => initState

/-- Witness for C5: a concrete successful backtrack increments the counter
within bounds, and a concrete exhausted one fails with the exhaustion panic. -/
theorem claim_C5_witness :
    (0 < 1 ∧ 1 ≤ cfgW5.maxBombings) ∧
    backtrackGo cfgW5 fW5 entZero (0, 0) 2 initState = .error .backtrackExhausted := by
  constructor
  · refine claim_C5_backtracking_exhaustion.1 cfgW5 fW5 entZero (0, 0) 0 initState 1
      (computeEntropies entZero (bombArea cfgW5 (0, 0) 0) sCpW5) ?_
    exact backtrackGo_success cfgW5 fW5 entZero (0, 0) 0 initState sCpW5 (by decide)
      (by with_unfolding_all rfl)
  · exact claim_C5_backtracking_exhaustion.2.1 cfgW5 fW5 entZero (0, 0) 2 initState (by decide)

/-- The configuration of the C10 scenario: a `1×1` grid, 3 tile kinds. -/
def cfgC10 : Cfg := ⟨(1, 1), 3, 1, 10, 10⟩

/-- The C10 callback: a fully determined (one-hot) weight vector `[0, 1, 0]`
for every cell — evaluation succeeds everywhere. -/
def fC10 : Callback := fun _ _ i => if i = 1 then 1 else 0

/-- The state after the (successful) evaluation pass of the C10 scenario. -/
def sEvalC10 : WfcState :=
  (evalRect cfgC10.numTiles fC10 (Rect.fromSize cfgC10.size).iterIndices
    (resetRect (Rect.fromSize cfgC10.size).iterIndices initState)).1

/-- C10: after every (re)initialization pass over a rectangle whose cells all
evaluate successfully, `compute_probabilities` asserts that the rectangle's
top-left cell and its bottom-right cell each hold strictly more than one
strictly positive probability entry: it aborts with the top-left assertion
failure when the top-left cell has at most one positive entry, and with the
bottom-right assertion failure when the top-left cell passes but the
bottom-right cell has at most one positive entry. Any such abort of the
initial full-grid pass aborts the whole solve with the same error, and any
such abort of the re-initialization pass of a bombed region aborts the
enclosing backtracking (and with it the solve) with the same error.
Consequently a callback returning a one-hot weight vector for a corner cell of
the grid or of a bombed region kills the solve even though evaluation of that
cell succeeded. -/
theorem claim_C10_corner_assertion :
    (∀ (cfg : Cfg) (f : Callback) (s : WfcState) (rect : Rect) (s2 : WfcState),
      evalRect cfg.numTiles f rect.iterIndices (resetRect rect.iterIndices s) = (s2, true) →
      positiveCount cfg.numTiles (s2.probs rect.topLeft) ≤ 1 →
      computeProbabilities cfg f s rect = .error .assertCornerTL) ∧
    (∀ (cfg : Cfg) (f : Callback) (s : WfcState) (rect : Rect) (s2 : WfcState),
      evalRect cfg.numTiles f rect.iterIndices (resetRect rect.iterIndices s) = (s2, true) →
      1 < positiveCount cfg.numTiles (s2.probs rect.topLeft) →
      positiveCount cfg.numTiles (s2.probs rect.bottomRight) ≤ 1 →
      computeProbabilities cfg f s rect = .error .assertCornerBR) ∧
    (∀ (cfg : Cfg) (f : Callback) (ent : EntFn) (stream : ℕ → ℚ) (e : Panic),
      computeProbabilities cfg f initState (Rect.fromSize cfg.size) = .error e →
      generate cfg f ent stream = .error e) ∧
    (∀ (cfg : Cfg) (f : Callback) (ent : EntFn) (pos : Coord) (done : ℕ) (s : WfcState)
        (e : Panic),
      done < cfg.maxBombings →
      computeProbabilities cfg f s (bombArea cfg pos done) = .error e →
      backtrackGo cfg f ent pos done s = .error e) := by
  refine ⟨?_, ?_, ?_, ?_⟩
  · intro cfg f s rect s2 heval hle
    unfold computeProbabilities
    simp only []
    rw [heval]
    simp only [if_pos hle]
  · intro cfg f s rect s2 heval hgt hle
    unfold computeProbabilities
    simp only []
    rw [heval]
    have hgt2 : ¬ positiveCount cfg.numTiles (s2.probs rect.topLeft) ≤ 1 := by omega
    simp only [if_neg hgt2, if_pos hle]
  · intro cfg f ent stream e hcp
    unfold generate regenerate
    simp only []
    rw [hcp]
  · intro cfg f ent pos done s e hdone hcp
    exact backtrackGo_cp_err cfg f ent pos done s e (by omega) hcp

/-- The configuration of the C10 bottom-right witness: a `2×1` grid. -/
def cfgBR : Cfg := ⟨(2, 1), 3, 1, 10, 10⟩

/-- The C10 bottom-right callback: one-hot exactly at the bottom-right cell
`(1,0)` of the `2×1` grid, two positive entries at every other cell. -/
def fBR : Callback := fun _ p i =>
  if p = (1, 0) then (if i = 1 then 1 else 0) else (if i = 0 then 0 else 1)

/-- The state after the (successful) evaluation pass of the C10 bottom-right
witness. -/
def sEvalBR : WfcState :=
  (evalRect cfgBR.numTiles fBR (Rect.fromSize cfgBR.size).iterIndices
    (resetRect (Rect.fromSize cfgBR.size).iterIndices initState)).1

/-- The state after the (successful) evaluation pass of the bombed-region
re-initialization of the C10 scenario. -/
def sBombC10 : WfcState :=
  (evalRect cfgC10.numTiles fC10 (bombArea cfgC10 (0, 0) 0).iterIndices
    (resetRect (bombArea cfgC10 (0, 0) 0).iterIndices initState)).1

/-- Witness for C10: the one-hot-corner callback on a `1×1` grid aborts the
initial pass and the whole solve with the top-left corner assertion; a
callback that is one-hot exactly at the bottom-right cell of a `2×1` grid
(and not at the top-left one) aborts with the bottom-right corner assertion;
and the one-hot callback makes the re-initialization pass of a concrete
bombing attempt abort the backtracking with the corner assertion. -/
theorem claim_C10_witness :
    computeProbabilities cfgC10 fC10 initState (Rect.fromSize cfgC10.size) =
      .error .assertCornerTL ∧
    generate cfgC10 fC10 entZero strQuarter = .error .assertCornerTL ∧
    computeProbabilities cfgBR fBR initState (Rect.fromSize cfgBR.size) =
      .error .assertCornerBR ∧
    backtrackGo cfgC10 fC10 entZero (0, 0) 0 initState = .error .assertCornerTL := by
  have h1 : computeProbabilities cfgC10 fC10 initState (Rect.fromSize cfgC10.size) =
      .error .assertCornerTL :=
    claim_C10_corner_assertion.1 cfgC10 fC10 initState (Rect.fromSize cfgC10.size) sEvalC10
      (by with_unfolding_all rfl) (by with_unfolding_all decide)
  have hbr : computeProbabilities cfgBR fBR initState (Rect.fromSize cfgBR.size) =
      .error .assertCornerBR :=
    claim_C10_corner_assertion.2.1 cfgBR fBR initState (Rect.fromSize cfgBR.size) sEvalBR
      (by with_unfolding_all rfl) (by with_unfolding_all decide) (by with_unfolding_all decide)
  have hbomb : backtrackGo cfgC10 fC10 entZero (0, 0) 0 initState = .error .assertCornerTL :=
    claim_C10_corner_assertion.2.2.2 cfgC10 fC10 entZero (0, 0) 0 initState .assertCornerTL
      (by decide)
      (claim_C10_corner_assertion.1 cfgC10 fC10 initState (bombArea cfgC10 (0, 0) 0) sBombC10
        (by with_unfolding_all rfl) (by with_unfolding_all decide))
  exact ⟨h1, claim_C10_corner_assertion.2.2.1 cfgC10 fC10 entZero strQuarter .assertCornerTL h1,
    hbr, hbomb⟩

/-- The configuration of the C2 counterexample: a `1×1` grid, 3 tile kinds. -/
def cfgC2 : Cfg := ⟨(1, 1), 3, 1, 10, 10⟩

/-- The C2 counterexample callback: uniform weights over all three slots,
including the reserved sentinel slot 0 (evaluation succeeds: slot 0 is not the
sentinel value and the sum is positive). -/
def fC2 : Callback := fun _ _ i => if i < 3 then 1 else 0

/-- The state with which the C2 counterexample run enters the main loop. -/
def sReadyC2 : WfcState :=
  match computeProbabilities cfgC2 fC2 initState (Rect.fromSize cfgC2.size) with
  | .ok (s1, _) => computeEntropies entZero (Rect.fromSize cfgC2.size) s1
  | .error _ => initState

/-- The final state of the C2 counterexample run. -/
def sSetC2 : WfcState :=
  match setTile cfgC2 fC2 entZero { sReadyC2 with entropy := [] } (0, 0) 0 with
  | .ok (s, _) => s
  | .error _ => initState

/-- C2 counterexample: nothing in the engine prevents the reserved sentinel
index 0 from being selected — with uniform weights `[1,1,1]` and first roll
`1/4 ≤ 1/3`, the solver commits tile 0 at the only cell and returns that grid
as solved (`valid = true`, committed tile = the sentinel 0). -/
theorem claim_C2_counterexample :
    generate cfgC2 fC2 entZero strQuarter = .ok (0, sSetC2) ∧
    sSetC2.valid (0, 0) = true ∧ sSetC2.tiles (0, 0) = 0 := by
  refine ⟨?_, by with_unfolding_all decide, by with_unfolding_all decide⟩
  have h1 : generate cfgC2 fC2 entZero strQuarter =
      regenerateGo cfgC2 fC2 entZero strQuarter 0 0 sReadyC2 := by with_unfolding_all rfl
  rw [h1]
  have h2 : regenerateGo cfgC2 fC2 entZero strQuarter 0 0 sReadyC2 =
      regenerateGo cfgC2 fC2 entZero strQuarter 1 0 sSetC2 :=
    regenerateGo_set_ok cfgC2 fC2 entZero strQuarter 0 0 sReadyC2 (0, 0) 0 [] 0 sSetC2
      (by with_unfolding_all rfl) (by with_unfolding_all rfl) (by with_unfolding_all rfl)
  rw [h2]
  exact regenerateGo_pop_none cfgC2 fC2 entZero strQuarter 1 0 sSetC2
    (by with_unfolding_all rfl)

/-- C2 (amended): provided the callback always assigns weight 0 to the
reserved slot 0 (as the repository's example callbacks do) and the rolls are
nonnegative (`Uniform(0..1)` rolls are), every solved grid has every cell
committed with a tile index in `[1, numTiles-1]`. Without the slot-0
hypothesis the engine itself never excludes the sentinel (see the
counterexample). The `u32`-range hypotheses state that the configured sizes
fit `u32` and that the largest bombing radius does not wrap the `radius as
u32` cast. -/
theorem claim_C2_amended :
    ∀ (cfg : Cfg) (f : Callback) (ent : EntFn) (stream : ℕ → ℚ) (d2 : ℕ) (s2 : WfcState),
      (∀ g p, f g p 0 = 0) → (∀ k, 0 ≤ stream k) →
      1 ≤ cfg.size.1 → 1 ≤ cfg.size.2 →
      cfg.size.1 ≤ u32Mod → cfg.size.2 ≤ u32Mod →
      cfg.bombRadius * 2 ^ cfg.maxBombings < u32Mod →
      generate cfg f ent stream = .ok (d2, s2) →
      (∀ p, inGrid cfg.size p → s2.valid p = true) ∧
      (∀ p, s2.valid p = true → 1 ≤ s2.tiles p ∧ s2.tiles p < cfg.numTiles) := by
  intro cfg f ent stream d2 s2 hcb hroll hs1 hs2 hb1 hb2 hrad h
  have hsol := generate_solved cfg f ent stream hcb hroll hs1 hs2 hb1 hb2 hrad d2 s2 h
  exact ⟨hsol.1, hsol.2.1⟩

/-- The configuration of the C2/C4 witness runs. -/
def cfgW2 : Cfg := ⟨(1, 1), 3, 1, 10, 10⟩

/-- The witness callback: weight 0 in slot 0, weight 1 for tiles 1 and 2. -/
def fW2 : Callback := fun _ _ i => if i = 0 then 0 else if i < 3 then 1 else 0

/-- The state with which the C2 witness run enters the main loop. -/
def sReadyW2 : WfcState :=
  match computeProbabilities cfgW2 fW2 initState (Rect.fromSize cfgW2.size) with
  | .ok (s1, _) => computeEntropies entZero (Rect.fromSize cfgW2.size) s1
  | .error _ => initState

/-- The final state of the C2 witness run. -/
def sSetW2 : WfcState :=
  match setTile cfgW2 fW2 entZero { sReadyW2 with entropy := [] } (0, 0) 1 with
  | .ok (s, _) => s
  | .error _ => initState

/-- Witness for C2 (amended) on a concrete solved run. -/
theorem claim_C2_witness :
    sSetW2.valid (0, 0) = true ∧
    1 ≤ sSetW2.tiles (0, 0) ∧ sSetW2.tiles (0, 0) < cfgW2.numTiles := by
  have hgen : generate cfgW2 fW2 entZero strQuarter = .ok (0, sSetW2) := by
    have h1 : generate cfgW2 fW2 entZero strQuarter =
        regenerateGo cfgW2 fW2 entZero strQuarter 0 0 sReadyW2 := by with_unfolding_all rfl
    rw [h1]
    have h2 : regenerateGo cfgW2 fW2 entZero strQuarter 0 0 sReadyW2 =
        regenerateGo cfgW2 fW2 entZero strQuarter 1 0 sSetW2 :=
      regenerateGo_set_ok cfgW2 fW2 entZero strQuarter 0 0 sReadyW2 (0, 0) 0 [] 1 sSetW2
        (by with_unfolding_all rfl) (by with_unfolding_all rfl) (by with_unfolding_all rfl)
    rw [h2]
    exact regenerateGo_pop_none cfgW2 fW2 entZero strQuarter 1 0 sSetW2
      (by with_unfolding_all rfl)
  have h := claim_C2_amended cfgW2 fW2 entZero strQuarter 0 sSetW2
    (fun g p => rfl) (fun k => by norm_num [strQuarter]) (by decide) (by decide) (by decide)
    (by decide) (by decide) hgen
  exact ⟨h.1 (0, 0) (by decide), h.2 (0, 0) (h.1 (0, 0) (by decide))⟩

/-- C4: immediately after each successful commit of tile `t` at a cell, the
stored probability vector of that cell is exactly one-hot — `1.0` at index `t`
and `0.0` at every other index — and the invariant persists to every solved
result: in any `ok` outcome of `generate`, every committed cell's stored
vector is one-hot at its committed tile (between commit and a backtracking
reset the vector is never recomputed: the neighbor-update loop of `set_tile`
skips committed cells, and `compute_probabilities` resets `valid` for every
cell it touches). -/
theorem claim_C4_one_hot_after_commit :
    (∀ (cfg : Cfg) (f : Callback) (ent : EntFn) (s : WfcState) (pos : Coord) (t : ℕ)
        (s1 : WfcState),
      setTile cfg f ent s pos t = .ok (s1, true) →
      ∀ i, s1.probs pos i = if i = t then 1 else 0) ∧
    (∀ (cfg : Cfg) (f : Callback) (ent : EntFn) (stream : ℕ → ℚ) (d2 : ℕ) (s2 : WfcState),
      (∀ g p, f g p 0 = 0) → (∀ k, 0 ≤ stream k) →
      1 ≤ cfg.size.1 → 1 ≤ cfg.size.2 →
      cfg.size.1 ≤ u32Mod → cfg.size.2 ≤ u32Mod →
      cfg.bombRadius * 2 ^ cfg.maxBombings < u32Mod →
      generate cfg f ent stream = .ok (d2, s2) →
      ∀ p, s2.valid p = true → ∀ i, s2.probs p i = if i = s2.tiles p then 1 else 0) := by
  constructor
  · intro cfg f ent s pos t s1 h i
    have hone := setTile_true_probs_pos cfg f ent s pos t s1 h
    rw [hone]
    rfl
  · intro cfg f ent stream d2 s2 hcb hroll hs1 hs2 hb1 hb2 hrad h p hp i
    have hsol := generate_solved cfg f ent stream hcb hroll hs1 hs2 hb1 hb2 hrad d2 s2 h
    have hone := hsol.2.2 p hp
    rw [hone]
    rfl

/-- The state after the C4 witness commit. -/
def sW4 : WfcState :=
  match setTile cfgW2 fW2 entZero initState (0, 0) 1 with
  | .ok (s, _) => s
  | .error _ => initState

/-- Witness for C4 on a concrete commit. -/
theorem claim_C4_witness :
    sW4.probs (0, 0) 1 = (if 1 = 1 then (1 : ℚ) else 0) ∧
    sW4.probs (0, 0) 0 = (if 0 = 1 then (1 : ℚ) else 0) := by
  have h := claim_C4_one_hot_after_commit.1 cfgW2 fW2 entZero initState (0, 0) 1 sW4 (by rfl)
  exact ⟨h 1, h 0⟩
